import Mathlib

/-!
# Verification of the mm-go quoting and paper-trading core

Shallow embedding of the market-making core of the `voladelta/mm-go`
repository: the `Candle`/`Quote`/`Order`/`Trade` data model, the
`PaperEngine` accounting engine, the `MeIndicator` market-efficiency
indicator, the `EmaIndicator` EMA-slope trend indicator, the `MmStrat`
quote-generation strategy, and the backtest loop of `main`.

Go `float64` values are modelled by `F`: either NaN or an exact rational.
Rounding is not modelled (every accounting identity claimed by the spec is
an exact identity, stated over exact arithmetic); NaN propagation and the
IEEE comparison semantics used by the Go code (`NaN op x` comparisons are
false, `!=` is true on NaN) are modelled faithfully, because the code
branches on them.
-/

/-- A Go `float64`, modelled as NaN or an exact rational.  Infinities are not
modelled: every division performed by the embedded code is guarded by a
nonzero/positivity test on the divisor, so `F.div` maps the unreachable
divide-by-zero case to NaN. -/
inductive F where
  | nan : F
  | val : ℚ → F
deriving DecidableEq, Repr

/-- Addition; NaN-propagating. -/
def F.add : F → F → F
  | F.val a, F.val b => F.val (a + b)
  | _, _ => F.nan

/-- Subtraction; NaN-propagating. -/
def F.sub : F → F → F
  | F.val a, F.val b => F.val (a - b)
  | _, _ => F.nan

/-- Multiplication; NaN-propagating. -/
def F.mul : F → F → F
  | F.val a, F.val b => F.val (a * b)
  | _, _ => F.nan

/-- Division; NaN-propagating.  Division by zero yields NaN (Go would yield
±Inf for a nonzero dividend; the embedded code never divides by zero on any
path reached by the theorems below, as each division is guarded). -/
def F.div : F → F → F
  | F.val a, F.val b => if b = 0 then F.nan else F.val (a / b)
  | _, _ => F.nan

/-- Negation (`-x`); NaN-propagating. -/
def F.neg : F → F
  | F.val a => F.val (-a)
  | F.nan => F.nan

/-- `math.Abs`. -/
def F.abs : F → F
  | F.val a => F.val |a|
  | F.nan => F.nan

/-- `math.Max`: NaN if either argument is NaN. -/
def F.max : F → F → F
  | F.val a, F.val b => F.val (Max.max a b)
  | _, _ => F.nan

/-- Go built-in `min` on floats: NaN if either argument is NaN. -/
def F.minF : F → F → F
  | F.val a, F.val b => F.val (Min.min a b)
  | _, _ => F.nan

/-- `math.Sqrt`: NaN on NaN and on negative inputs, `Rat.sqrt` otherwise.
`Rat.sqrt` agrees with the real square root exactly on perfect squares; in
the embedded code the square root feeds only the locally-computed (and, in
`EmaIndicator.Process`, discarded) normalized slope, and every theorem that
evaluates it does so at a perfect-square input. -/
def F.sqrt : F → F
  | F.val a => if a < 0 then F.nan else F.val (Rat.sqrt a)
  | F.nan => F.nan

/-- Go float `==`: false if either side is NaN. -/
def F.beq : F → F → Bool
  | F.val a, F.val b => decide (a = b)
  | _, _ => false

/-- Go float `<`: false if either side is NaN. -/
def F.lt : F → F → Bool
  | F.val a, F.val b => decide (a < b)
  | _, _ => false

/-- Go float `<=`: false if either side is NaN. -/
def F.le : F → F → Bool
  | F.val a, F.val b => decide (a ≤ b)
  | _, _ => false

/-- Go float `>`: false if either side is NaN. -/
def F.gt : F → F → Bool
  | F.val a, F.val b => decide (b < a)
  | _, _ => false

/-- Go float `>=`: false if either side is NaN. -/
def F.ge : F → F → Bool
  | F.val a, F.val b => decide (b ≤ a)
  | _, _ => false

/-- `math.IsNaN`. -/
def F.isNaN : F → Bool
  | F.nan => true
  | F.val _ => false

/-- Go `float64(n)` conversion of an integer (exact in this model). -/
def F.ofInt (n : ℤ) : F := F.val n

/-- Sum of a list of modelled floats (left fold of `F.add` from `0`), used to
state the spec-side windowed sums that the code's running sums must match. -/
def F.listSum (l : List F) : F := l.foldl F.add (F.val 0)

/-- One OHLCV bar (`Candle` in `part_000`). -/
structure Candle where
  time : ℤ
  open_ : F
  high : F
  low : F
  close : F
  volume : F
deriving DecidableEq, Repr

/-- Order/trade side; the Go code uses the strings "buy" and "sell" and the
engine constructs no other value. -/
inductive Side where
  | buy : Side
  | sell : Side
deriving DecidableEq, Repr

/-- An immutable fill record (`Trade`). -/
structure Trade where
  side : Side
  time : ℤ
  price : F
  size : ℤ
deriving DecidableEq, Repr

/-- A two-sided quote (`Quote`). -/
structure Quote where
  time : ℤ
  bidPrice : F
  bidSize : ℤ
  bidActive : Bool
  askPrice : F
  askSize : ℤ
  askActive : Bool
  valid : Bool
deriving DecidableEq, Repr

/-- The Go zero value `Quote{}`, returned by the strategy when it withholds
a quote. -/
def Quote.zeroVal : Quote :=
  { time := 0, bidPrice := F.val 0, bidSize := 0, bidActive := false,
    askPrice := F.val 0, askSize := 0, askActive := false, valid := false }

/-- A resting order held by the paper engine (`Order`). -/
structure Order where
  side : Side
  price : F
  size : ℤ
  placedAt : ℤ
deriving DecidableEq, Repr

/-- One observability snapshot (`ResultRow`). -/
structure ResultRow where
  time : ℤ
  close : F
  bid : F
  ask : F
  inventory : ℤ
  signal : F
  cash : F
  cumulativePnL : F
  buyFillPrice : F
  hasBuyFill : Bool
  sellFillPrice : F
  hasSellFill : Bool
deriving DecidableEq, Repr

/-- The paper-trading engine state (`PaperEngine`). -/
structure PaperEngine where
  inventory : ℤ
  cash : F
  pendingOrders : List Order
  pnlHistory : List F
  trades : List Trade
  results : List ResultRow
  lastClose : F
deriving DecidableEq, Repr

/-- `NewPaperEngine`: all Go zero values, empty slices. -/
def NewPaperEngine : PaperEngine :=
  { inventory := 0, cash := F.val 0, pendingOrders := [], pnlHistory := [],
    trades := [], results := [], lastClose := F.val 0 }

/-- One iteration of the loop body of `PaperEngine.ApplyFills`: try to fill a
single resting order against the candle, accumulating fills. -/
def fillOrder (c : Candle) (acc : PaperEngine × List Trade) (order : Order) :
    PaperEngine × List Trade :=
  let pe := acc.1
  let fills := acc.2
  match order.side with
  | Side.buy =>
    if F.le c.low order.price then
      let trade : Trade :=
        { side := Side.buy, time := c.time, price := order.price, size := order.size }
      ({ pe with inventory := pe.inventory + order.size,
                 cash := F.sub pe.cash (F.mul order.price (F.ofInt order.size)),
                 trades := pe.trades ++ [trade] }, fills ++ [trade])
    else acc
  | Side.sell =>
    if F.ge c.high order.price then
      let trade : Trade :=
        { side := Side.sell, time := c.time, price := order.price, size := order.size }
      ({ pe with inventory := pe.inventory - order.size,
                 cash := F.add pe.cash (F.mul order.price (F.ofInt order.size)),
                 trades := pe.trades ++ [trade] }, fills ++ [trade])
    else acc

/-- `PaperEngine.ApplyFills`: evaluate every resting order against the
candle's high/low, then clear all resting orders unconditionally; returns
the updated engine and the fills of this cycle. -/
def PaperEngine.ApplyFills (pe : PaperEngine) (c : Candle) :
    PaperEngine × List Trade :=
  if pe.pendingOrders = [] then (pe, [])
  else
    let r := pe.pendingOrders.foldl (fillOrder c) (pe, [])
    ({ r.1 with pendingOrders := [] }, r.2)

/-- The new resting orders installed from a valid quote by
`PaperEngine.FinalizeCandle` (the `newOrders` block of the source). -/
def ordersFromQuote (quote : Quote) : List Order :=
  (if quote.bidActive ∧ quote.bidSize > 0 ∧ ¬(F.isNaN quote.bidPrice) then
    [{ side := Side.buy, price := quote.bidPrice, size := quote.bidSize,
       placedAt := quote.time }]
  else []) ++
  (if quote.askActive ∧ quote.askSize > 0 ∧ ¬(F.isNaN quote.askPrice) then
    [{ side := Side.sell, price := quote.askPrice, size := quote.askSize,
       placedAt := quote.time }]
  else [])

/-- `PaperEngine.FinalizeCandle`: record the mark-to-market P&L and a result
row, then replace the resting orders with the ones implied by the quote
(cleared when the quote is invalid). -/
def PaperEngine.FinalizeCandle (pe : PaperEngine) (c : Candle) (quote : Quote)
    (fills : List Trade) : PaperEngine × ResultRow :=
  let currentPnL := F.add pe.cash (F.mul (F.ofInt pe.inventory) c.close)
  let signal : F :=
    if pe.inventory > 0 then F.val 1
    else if pe.inventory < 0 then F.val (-1)
    else F.val 0
  let row : ResultRow :=
    { time := c.time, close := c.close, bid := F.nan, ask := F.nan,
      inventory := pe.inventory, signal := signal, cash := pe.cash,
      cumulativePnL := currentPnL, buyFillPrice := F.val 0,
      hasBuyFill := false, sellFillPrice := F.val 0, hasSellFill := false }
  let row := fills.foldl (fun r fill =>
    match fill.side with
    | Side.buy => { r with buyFillPrice := fill.price, hasBuyFill := true }
    | Side.sell => { r with sellFillPrice := fill.price, hasSellFill := true }) row
  let row := if quote.valid ∧ quote.bidActive then { row with bid := quote.bidPrice } else row
  let row := if quote.valid ∧ quote.askActive then { row with ask := quote.askPrice } else row
  let pe :=
    if quote.valid then { pe with pendingOrders := ordersFromQuote quote }
    else { pe with pendingOrders := [] }
  ({ pe with pnlHistory := pe.pnlHistory ++ [currentPnL],
             results := pe.results ++ [row], lastClose := c.close }, row)

/-- `PaperEngine.FinalPnL`. -/
def PaperEngine.FinalPnL (pe : PaperEngine) : F :=
  F.add pe.cash (F.mul (F.ofInt pe.inventory) pe.lastClose)

/-- The market-efficiency indicator state (`MeIndicator` in `part_000`). -/
structure MeIndicator where
  period : ℤ
  closeHistory : List F
  trWindow : List F
  volWindow : List F
  trSum : F
  volSum : F
  Efficiency : F
  IsBearish : Bool
deriving DecidableEq, Repr

/-- `NewMeIndicator`: zero values except the period. -/
def NewMeIndicator (period : ℤ) : MeIndicator :=
  { period := period, closeHistory := [], trWindow := [], volWindow := [],
    trSum := F.val 0, volSum := F.val 0, Efficiency := F.val 0, IsBearish := false }

/-- The true-range of the incoming candle:
`max(high-low, |high-prevClose|, |low-prevClose|)`, plain `high-low` when no
close has been stored yet (lines 625–630 of `part_000`). -/
def trueRange (closeHistory : List F) (c : Candle) : F :=
  let tr := F.sub c.high c.low
  match closeHistory.getLast? with
  | some prevClose =>
    F.max (F.max tr (F.abs (F.sub c.high prevClose))) (F.abs (F.sub c.low prevClose))
  | none => tr

/-- The repeated drop-oldest-add-newest window/running-sum update of
`MeIndicator.Process` (lines 632–637 and 639–644 of `part_000`): append the
new value, add it to the sum, and when the window exceeds `period` subtract
the oldest element and drop it. -/
def slideWindow (period : ℤ) (w : List F) (sum x : F) : List F × F :=
  let w := w ++ [x]
  let sum := F.add sum x
  -- the just-appended window is nonempty, so the `headD` default is unreachable
  if (w.length : ℤ) > period then (w.tail, F.sub sum (w.headD (F.val 0)))
  else (w, sum)

/-- The close-history trim of lines 646–649 of `part_000`: keep the most
recent `period+1` closes. -/
def trimCloses (period : ℤ) (l : List F) : List F :=
  if (l.length : ℤ) > period + 1 then l.drop (l.length - (period + 1).toNat)
  else l

/-- `MeIndicator.Process`: slide the true-range/volume windows and the close
history, and when at least `period+1` closes have been seen compute the
blended efficiency.  Early returns leave `Efficiency`/`IsBearish` at their
previous values while still persisting the window updates (the Go receiver
is a pointer). -/
def MeIndicator.Process (indi : MeIndicator) (c : Candle) : MeIndicator × Bool :=
  if indi.period ≤ 0 then (indi, false)
  else
    let tr := trueRange indi.closeHistory c
    let ptr := slideWindow indi.period indi.trWindow indi.trSum tr
    let trWindow := ptr.1
    let trSum := ptr.2
    let pvol := slideWindow indi.period indi.volWindow indi.volSum c.volume
    let volWindow := pvol.1
    let volSum := pvol.2
    let closeHistory := trimCloses indi.period (indi.closeHistory ++ [c.close])
    let st := { indi with
      trWindow := trWindow, trSum := trSum,
      volWindow := volWindow, volSum := volSum,
      closeHistory := closeHistory }
    if (closeHistory.length : ℤ) ≤ indi.period then (st, false)
    else if (trWindow.length : ℤ) < indi.period ∨ (volWindow.length : ℤ) < indi.period then
      (st, false)
    else
      -- the history has length `period+1 ≥ 2` here, so the `headD` default
      -- is unreachable
      let priceChange := F.sub c.close (closeHistory.headD (F.val 0))
      let totalMovement := trSum
      let efficiency :=
        if F.gt totalMovement (F.val 0) then F.div (F.abs priceChange) totalMovement
        else F.val 0
      let volumeSMA := F.div volSum (F.ofInt indi.period)
      let volumeRatio :=
        if F.gt volumeSMA (F.val 0) then F.div c.volume volumeSMA else F.val 0
      let marketEfficiency :=
        F.add (F.mul efficiency (F.val (7/10)))
          (F.mul (F.div (F.minF volumeRatio (F.val 3)) (F.val 3)) (F.val (3/10)))
      ({ st with
        Efficiency := F.minF marketEfficiency (F.val 1),
        IsBearish := F.lt priceChange (F.val 0) }, true)

/-- `clampFloat`: both comparisons are false on NaN, so a NaN input is
returned unchanged. -/
def clampFloat (v mn mx : F) : F :=
  if F.lt v mn then mn else if F.gt v mx then mx else v

/-- `absInt`. -/
def absInt (v : ℤ) : ℤ := if v < 0 then -v else v

/-- The EMA-slope trend indicator state (`EmaIndicator` in `part_000`). -/
structure EmaIndicator where
  span : ℤ
  window : List F
  alpha : F
  decay : F
  ema : F
  SlopeNorm : F
  sum : F
  sumSquares : F
  lastMid : F
  hasLastMid : Bool
deriving DecidableEq, Repr

/-- `NewEmaIndicator`: `alpha = 2/(span+1)`, zero values elsewhere. -/
def NewEmaIndicator (span : ℤ) : EmaIndicator :=
  let alpha := F.div (F.val 2) (F.val ((span : ℚ) + 1))
  { span := span, window := [], alpha := alpha,
    decay := F.sub (F.val 1) alpha, ema := F.val 0, SlopeNorm := F.val 0,
    sum := F.val 0, sumSquares := F.val 0, lastMid := F.val 0, hasLastMid := false }

/-- The normalized-slope value computed locally by lines 728–747 of
`EmaIndicator.Process` in `part_000`: slope over stdDev with the
`|previousMean|` / `|mean|` / exact-zero fallbacks.  The Go function computes
this value and then drops it — it never assigns `indi.SlopeNorm` — so this
definition reproduces the local computation for use in the theorems. -/
def emaNormSlopeLocal (hasLastMid : Bool) (lastMid mean stdDev : F) : F :=
  if hasLastMid then
    let slope := F.sub mean lastMid
    let denom := stdDev
    let denom :=
      if F.beq denom (F.val 0) then
        let d := F.abs lastMid
        if F.beq d (F.val 0) then F.abs mean else d
      else denom
    if ¬(F.beq denom (F.val 0)) then
      let normSlope := F.div slope denom
      if ¬(F.isNaN normSlope) then clampFloat normSlope (F.val (-1)) (F.val 1)
      else normSlope
    else F.val 0
  else F.nan

/-- `EmaIndicator.Process`: classic EMA update pushed into a sliding window
with running sum/sum-of-squares.  The normalized slope of lines 728–747 is
computed into a local (`_normSlope`) and discarded, exactly as in the
source, which never writes the `SlopeNorm` field. -/
def EmaIndicator.Process (indi : EmaIndicator) (c : Candle) : EmaIndicator × Bool :=
  let ema := F.add (F.mul c.close indi.alpha) (F.mul indi.ema indi.decay)
  let st := { indi with
    ema := ema, window := indi.window ++ [ema],
    sum := F.add indi.sum ema,
    sumSquares := F.add indi.sumSquares (F.mul ema ema) }
  if (st.window.length : ℤ) < indi.span then (st, false)
  else
    let st :=
      if (st.window.length : ℤ) > indi.span then
        -- the window is nonempty here, so the `headD` default is unreachable
        let removed := st.window.headD (F.val 0)
        { st with
          window := st.window.tail, sum := F.sub st.sum removed,
          sumSquares := F.sub st.sumSquares (F.mul removed removed) }
      else st
    let n := F.val (st.window.length : ℚ)
    let mean := F.div st.sum n
    let variance := F.sub (F.div st.sumSquares n) (F.mul mean mean)
    let variance := if F.lt variance (F.val 0) then F.val 0 else variance
    let stdDev := F.sqrt variance
    let _normSlope := emaNormSlopeLocal st.hasLastMid st.lastMid mean stdDev
    ({ st with lastMid := mean, hasLastMid := true }, true)

/-- The strategy parameters consumed by the core (`Params` fields used by
`NewMmStrat`; the JSON file supplies finite numbers, modelled as ℚ). -/
structure Params where
  MeSpan : ℤ
  EmaSpan : ℤ
  BaseSpread : ℚ
  InventoryLimit : ℤ
  LotSize : ℤ
  InventorySkewK : ℚ
  TrendSkewK : ℚ
  TrendBias : ℚ
deriving DecidableEq, Repr

/-- The market-making strategy state (`MmStrat` in `part_000`). -/
structure MmStrat where
  meIndi : MeIndicator
  emaIndi : EmaIndicator
  BaseSpread : F
  InventoryLimit : ℤ
  LotSize : ℤ
  InventorySkewK : F
  TrendSkewK : F
  TrendBias : F
deriving DecidableEq, Repr

/-- `NewMmStrat`. -/
def NewMmStrat (params : Params) : MmStrat :=
  { meIndi := NewMeIndicator params.MeSpan,
    emaIndi := NewEmaIndicator params.EmaSpan,
    BaseSpread := F.val params.BaseSpread,
    InventoryLimit := params.InventoryLimit,
    LotSize := params.LotSize,
    InventorySkewK := F.val params.InventorySkewK,
    TrendSkewK := F.val params.TrendSkewK,
    TrendBias := F.val params.TrendBias }

/-- `MmStrat.Process`: drive both indicators, withhold the quote if either is
not ready or its signal is NaN, otherwise build the skewed two-sided quote
and gate each side on the inventory limit.  Returns the updated strategy
(the Go receiver is a pointer), the `ok` flag and the quote. -/
def MmStrat.Process (s : MmStrat) (c : Candle) (inventory : ℤ) :
    MmStrat × Bool × Quote :=
  let er := s.emaIndi.Process c
  let emaIndi := er.1
  let emaOk := er.2
  let mr := s.meIndi.Process c
  let meIndi := mr.1
  let meOk := mr.2
  let s := { s with emaIndi := emaIndi, meIndi := meIndi }
  if ¬emaOk ∨ F.isNaN emaIndi.SlopeNorm ∨ ¬meOk ∨ F.isNaN meIndi.Efficiency then
    (s, false, Quote.zeroVal)
  else
    let quote : Quote :=
      { time := c.time, bidPrice := F.nan, bidSize := s.LotSize,
        bidActive := false, askPrice := F.nan, askSize := s.LotSize,
        askActive := false, valid := false }
    let closePrice := c.close
    let efficiency := meIndi.Efficiency
    let spread := F.mul (F.mul s.BaseSpread closePrice)
      (F.add (F.val 1) (F.mul efficiency (F.val 2)))
    let halfSpread := F.div spread (F.val 2)
    let mid := closePrice
    let bid := F.sub mid halfSpread
    let ask := F.add mid halfSpread
    let p :=
      if s.InventoryLimit > 0 ∧ ¬(F.beq s.InventorySkewK (F.val 0)) then
        let invDenominator := F.ofInt s.InventoryLimit
        if ¬(F.beq invDenominator (F.val 0)) then
          let invFrac := clampFloat (F.div (F.ofInt inventory) invDenominator)
            (F.val (-1)) (F.val 1)
          let invShift := F.mul (F.mul s.InventorySkewK invFrac) halfSpread
          (F.sub bid invShift, F.sub ask invShift)
        else (bid, ask)
      else (bid, ask)
    let bid := p.1
    let ask := p.2
    let p :=
      if ¬(F.beq s.TrendSkewK (F.val 0)) then
        let baseTrend := efficiency
        let baseTrend := if meIndi.IsBearish then F.neg baseTrend else baseTrend
        let trendSignal := clampFloat
          (F.add (F.add emaIndi.SlopeNorm (F.mul (F.val (1/2)) baseTrend)) s.TrendBias)
          (F.val (-1)) (F.val 1)
        let trendShift := F.mul (F.mul s.TrendSkewK trendSignal) halfSpread
        (F.sub bid trendShift, F.sub ask trendShift)
      else (bid, ask)
    let bid := p.1
    let ask := p.2
    let quote := { quote with bidPrice := bid, askPrice := ask, valid := true }
    let quote :=
      if s.InventoryLimit = 0 ∨ absInt (inventory + s.LotSize) ≤ s.InventoryLimit then
        { quote with bidActive := true }
      else { quote with bidPrice := F.nan }
    let quote :=
      if s.InventoryLimit = 0 ∨ absInt (inventory - s.LotSize) ≤ s.InventoryLimit then
        { quote with askActive := true }
      else { quote with askPrice := F.nan }
    (s, true, quote)

/-- The combined state of the backtest pipeline: the strategy and the paper
engine of `main`. -/
structure Sys where
  strategy : MmStrat
  paper : PaperEngine
deriving DecidableEq, Repr

/-- One iteration of the backtest loop of `main` (lines 878–888): apply
fills from the previously resting orders, feed the candle and the updated
inventory to the strategy, and — only when the strategy returns `ok` —
finalize the candle; `ok=false` skips `FinalizeCandle` (`continue`). -/
def stepSys (sys : Sys) (c : Candle) : Sys :=
  let pf := sys.paper.ApplyFills c
  let sq := sys.strategy.Process c pf.1.inventory
  if sq.2.1 then
    { strategy := sq.1, paper := (pf.1.FinalizeCandle c sq.2.2 pf.2).1 }
  else
    { strategy := sq.1, paper := pf.1 }

/-- The whole backtest loop over a candle list. -/
def runSys (sys : Sys) (cs : List Candle) : Sys := cs.foldl stepSys sys

/-- The initial pipeline state built by `main`. -/
def initSys (params : Params) : Sys :=
  { strategy := NewMmStrat params, paper := NewPaperEngine }

/-- The `ok` flag the strategy returns during `stepSys sys c` (the candle is
offered to the strategy together with the post-fill inventory). -/
def stepOk (sys : Sys) (c : Candle) : Bool :=
  (sys.strategy.Process c ((sys.paper.ApplyFills c).1.inventory)).2.1

/-- Number of cycles of a run in which the strategy returned `ok=true`. -/
def okCount : Sys → List Candle → ℕ
  | _, [] => 0
  | sys, c :: cs => (if stepOk sys c then 1 else 0) + okCount (stepSys sys c) cs

/-- Driving the market-efficiency indicator over a candle list. -/
def meRun (st : MeIndicator) (cs : List Candle) : MeIndicator :=
  cs.foldl (fun st c => (st.Process c).1) st

/-- A float that is an actual number (not NaN). -/
def F.isVal : F → Bool
  | F.nan => false
  | F.val _ => true

/-- A candle all of whose fields are actual numbers.  JSON/kline data is
finite; NaN candles are only relevant to the NaN-propagation claims. -/
def Candle.fin (c : Candle) : Bool :=
  c.open_.isVal && c.high.isVal && c.low.isVal && c.close.isVal && c.volume.isVal

/-- Convenience constructor for concrete finite candles (open = close). -/
def mkCandle (t : ℤ) (h l c v : ℚ) : Candle :=
  { time := t, open_ := F.val c, high := F.val h, low := F.val l,
    close := F.val c, volume := F.val v }

/-- The trade generated when order `o` fills on candle `c`. -/
def tradeOf (c : Candle) (o : Order) : Trade :=
  { side := o.side, time := c.time, price := o.price, size := o.size }

/-- The fill test of `ApplyFills`: a buy fills iff `low ≤ price`, a sell
fills iff `high ≥ price`. -/
def fillCond (c : Candle) (o : Order) : Bool :=
  match o.side with
  | Side.buy => F.le c.low o.price
  | Side.sell => F.ge c.high o.price

/-- The fills a candle produces from a resting-order list, in list order. -/
def fillsOf (c : Candle) (l : List Order) : List Trade :=
  l.filterMap (fun o => if fillCond c o then some (tradeOf c o) else none)

theorem F_add_val (a b : ℚ) : F.add (F.val a) (F.val b) = F.val (a + b) := rfl

theorem F_sub_val (a b : ℚ) : F.sub (F.val a) (F.val b) = F.val (a - b) := rfl

theorem F_mul_val (a b : ℚ) : F.mul (F.val a) (F.val b) = F.val (a * b) := rfl

theorem F_listSum_map (qs : List ℚ) : F.listSum (qs.map F.val) = F.val qs.sum := by
  suffices h : ∀ (qs : List ℚ) (a : ℚ),
      (qs.map F.val).foldl F.add (F.val a) = F.val (a + qs.sum) by
    simpa using h qs 0
  intro qs
  induction qs with
  | nil => intro a; simp [F.listSum]
  | cons q qs ih =>
    intro a
    simp only [List.map_cons, List.foldl_cons, F_add_val, List.sum_cons, ih]
    ring_nf

theorem fillsOf_nil (c : Candle) : fillsOf c [] = [] := rfl

theorem fillsOf_cons (c : Candle) (o : Order) (l : List Order) :
    fillsOf c (o :: l) =
      (if fillCond c o then [tradeOf c o] else []) ++ fillsOf c l := by
  simp only [fillsOf, List.filterMap_cons]
  split <;> simp_all

/-- One `fillOrder` step, described through `fillCond`/`tradeOf`: the engine
fields other than inventory/cash/trades are untouched, and the fills list
grows by the fill of this order, if any. -/
theorem fillOrder_spec (c : Candle) (pe : PaperEngine) (fs : List Trade) (o : Order) :
    (fillOrder c (pe, fs) o).2 = fs ++ (if fillCond c o then [tradeOf c o] else []) ∧
    (fillOrder c (pe, fs) o).1.trades =
      pe.trades ++ (if fillCond c o then [tradeOf c o] else []) ∧
    (fillOrder c (pe, fs) o).1.pendingOrders = pe.pendingOrders ∧
    (fillOrder c (pe, fs) o).1.results = pe.results ∧
    (fillOrder c (pe, fs) o).1.pnlHistory = pe.pnlHistory ∧
    (fillOrder c (pe, fs) o).1.lastClose = pe.lastClose := by
  rcases o with ⟨side, price, size, placedAt⟩
  cases side <;>
    simp only [fillOrder, fillCond, tradeOf] <;> split <;> simp

/-- The `ApplyFills` fold, characterized: fills are `fillsOf` of the resting
orders, appended to the trade log; the bookkeeping fields are untouched. -/
theorem foldl_fillOrder_spec (c : Candle) (l : List Order) :
    ∀ (pe : PaperEngine) (fs : List Trade),
    (l.foldl (fillOrder c) (pe, fs)).2 = fs ++ fillsOf c l ∧
    (l.foldl (fillOrder c) (pe, fs)).1.trades = pe.trades ++ fillsOf c l ∧
    (l.foldl (fillOrder c) (pe, fs)).1.pendingOrders = pe.pendingOrders ∧
    (l.foldl (fillOrder c) (pe, fs)).1.results = pe.results ∧
    (l.foldl (fillOrder c) (pe, fs)).1.pnlHistory = pe.pnlHistory ∧
    (l.foldl (fillOrder c) (pe, fs)).1.lastClose = pe.lastClose := by
  induction l with
  | nil => intro pe fs; simp [fillsOf]
  | cons o l ih =>
    intro pe fs
    obtain ⟨h2, htr, hpd, hre, hph, hlc⟩ := fillOrder_spec c pe fs o
    simp only [List.foldl_cons, fillsOf_cons]
    have heq : fillOrder c (pe, fs) o =
        ((fillOrder c (pe, fs) o).1, (fillOrder c (pe, fs) o).2) := rfl
    rw [heq, h2]
    obtain ⟨g2, gtr, gpd, gre, gph, glc⟩ :=
      ih (fillOrder c (pe, fs) o).1 (fs ++ (if fillCond c o then [tradeOf c o] else []))
    refine ⟨by rw [g2]; simp, ?_, ?_, ?_, ?_, ?_⟩
    · rw [gtr, htr]; simp
    · rw [gpd, hpd]
    · rw [gre, hre]
    · rw [gph, hph]
    · rw [glc, hlc]

/-- `ApplyFills`, characterized. -/
theorem applyFills_spec (pe : PaperEngine) (c : Candle) :
    (pe.ApplyFills c).2 = fillsOf c pe.pendingOrders ∧
    (pe.ApplyFills c).1.pendingOrders = [] ∧
    (pe.ApplyFills c).1.trades = pe.trades ++ fillsOf c pe.pendingOrders ∧
    (pe.ApplyFills c).1.results = pe.results ∧
    (pe.ApplyFills c).1.pnlHistory = pe.pnlHistory ∧
    (pe.ApplyFills c).1.lastClose = pe.lastClose := by
  unfold PaperEngine.ApplyFills
  split
  · rename_i h
    simp [h, fillsOf]
  · obtain ⟨h2, htr, hpd, hre, hph, hlc⟩ := foldl_fillOrder_spec c pe.pendingOrders pe []
    simp_all

/-- `FinalizeCandle`, characterized: inventory, cash and the trade log are
untouched; exactly one result row is appended; the resting orders become
those implied by the quote (none when invalid); `lastClose` becomes the
candle's close. -/
theorem finalizeCandle_spec (pe : PaperEngine) (c : Candle) (q : Quote)
    (fills : List Trade) :
    (pe.FinalizeCandle c q fills).1.inventory = pe.inventory ∧
    (pe.FinalizeCandle c q fills).1.cash = pe.cash ∧
    (pe.FinalizeCandle c q fills).1.trades = pe.trades ∧
    (pe.FinalizeCandle c q fills).1.pendingOrders =
      (if q.valid then ordersFromQuote q else []) ∧
    (pe.FinalizeCandle c q fills).1.results.length = pe.results.length + 1 ∧
    (pe.FinalizeCandle c q fills).1.lastClose = c.close := by
  unfold PaperEngine.FinalizeCandle
  split <;> simp <;> split <;> simp


/-- The quote the strategy emits during `stepSys sys c`. -/
def stepQuote (sys : Sys) (c : Candle) : Quote :=
  (sys.strategy.Process c ((sys.paper.ApplyFills c).1.inventory)).2.2

theorem process_fst (s : MmStrat) (c : Candle) (i : ℤ) :
    (s.Process c i).1 =
      { s with emaIndi := (s.emaIndi.Process c).1, meIndi := (s.meIndi.Process c).1 } := by
  simp only [MmStrat.Process]
  split <;> rfl

theorem process_ok_iff (s : MmStrat) (c : Candle) (i : ℤ) :
    (s.Process c i).2.1 = true ↔
      ((s.emaIndi.Process c).2 = true ∧
       F.isNaN (s.emaIndi.Process c).1.SlopeNorm = false ∧
       (s.meIndi.Process c).2 = true ∧
       F.isNaN (s.meIndi.Process c).1.Efficiency = false) := by
  simp only [MmStrat.Process]
  split
  · rename_i h
    simp only [Bool.false_eq_true, false_iff]
    intro ⟨h1, h2, h3, h4⟩
    rcases h with h | h | h | h <;> simp_all
  · rename_i h
    push_neg at h
    obtain ⟨h1, h2, h3, h4⟩ := h
    simp_all

theorem process_quote_spec (s : MmStrat) (c : Candle) (i : ℤ)
    (hok : (s.Process c i).2.1 = true) :
    (s.Process c i).2.2.valid = true ∧
    (s.Process c i).2.2.bidSize = s.LotSize ∧
    (s.Process c i).2.2.askSize = s.LotSize ∧
    (s.Process c i).2.2.bidActive =
      decide (s.InventoryLimit = 0 ∨ absInt (i + s.LotSize) ≤ s.InventoryLimit) ∧
    (s.Process c i).2.2.askActive =
      decide (s.InventoryLimit = 0 ∨ absInt (i - s.LotSize) ≤ s.InventoryLimit) ∧
    ((s.Process c i).2.2.bidActive = false → (s.Process c i).2.2.bidPrice = F.nan) ∧
    ((s.Process c i).2.2.askActive = false → (s.Process c i).2.2.askPrice = F.nan) := by
  simp only [MmStrat.Process] at hok ⊢
  split at hok
  · simp at hok
  · rename_i h
    rw [if_neg h]
    by_cases hb : s.InventoryLimit = 0 ∨ absInt (i + s.LotSize) ≤ s.InventoryLimit <;>
      by_cases ha : s.InventoryLimit = 0 ∨ absInt (i - s.LotSize) ≤ s.InventoryLimit <;>
      simp [hb, ha]

theorem stepSys_strategy (sys : Sys) (c : Candle) :
    (stepSys sys c).strategy =
      (sys.strategy.Process c ((sys.paper.ApplyFills c).1.inventory)).1 := by
  simp only [stepSys]
  split <;> rfl

theorem stepSys_paper_ok (sys : Sys) (c : Candle) (h : stepOk sys c = true) :
    (stepSys sys c).paper =
      ((sys.paper.ApplyFills c).1.FinalizeCandle c (stepQuote sys c)
        (sys.paper.ApplyFills c).2).1 := by
  unfold stepOk at h
  simp only [stepSys, stepQuote]
  simp [h]

theorem stepSys_paper_notok (sys : Sys) (c : Candle) (h : stepOk sys c = false) :
    (stepSys sys c).paper = (sys.paper.ApplyFills c).1 := by
  unfold stepOk at h
  simp only [stepSys]
  simp [h]

/-- The trades recorded while processing a candle are exactly the fills of
the orders that were resting before the candle arrived. -/
theorem stepSys_trades (sys : Sys) (c : Candle) :
    (stepSys sys c).paper.trades = sys.paper.trades ++ (sys.paper.ApplyFills c).2 := by
  obtain ⟨h2, _, htr, _, _, _⟩ := applyFills_spec sys.paper c
  cases hok : stepOk sys c
  · rw [stepSys_paper_notok sys c hok, htr, h2]
  · rw [stepSys_paper_ok sys c hok]
    obtain ⟨_, _, hftr, _, _, _⟩ :=
      finalizeCandle_spec (sys.paper.ApplyFills c).1 c (stepQuote sys c)
        (sys.paper.ApplyFills c).2
    rw [hftr, htr, h2]

theorem stepSys_results_len (sys : Sys) (c : Candle) :
    (stepSys sys c).paper.results.length =
      sys.paper.results.length + (if stepOk sys c then 1 else 0) := by
  obtain ⟨_, _, _, hre, _, _⟩ := applyFills_spec sys.paper c
  cases hok : stepOk sys c
  · rw [stepSys_paper_notok sys c hok, hre]
    simp
  · rw [stepSys_paper_ok sys c hok]
    obtain ⟨_, _, _, _, hfl, _⟩ :=
      finalizeCandle_spec (sys.paper.ApplyFills c).1 c (stepQuote sys c)
        (sys.paper.ApplyFills c).2
    rw [hfl, hre]
    simp

/-- After a cycle the resting orders are exactly those implied by the
cycle's quote — none when the strategy withheld it. -/
theorem stepSys_pending (sys : Sys) (c : Candle) :
    (stepSys sys c).paper.pendingOrders =
      if stepOk sys c then ordersFromQuote (stepQuote sys c) else [] := by
  obtain ⟨_, hpd, _, _, _, _⟩ := applyFills_spec sys.paper c
  cases hok : stepOk sys c
  · rw [stepSys_paper_notok sys c hok, hpd]
    simp
  · rw [stepSys_paper_ok sys c hok]
    obtain ⟨_, _, _, hfpd, _, _⟩ :=
      finalizeCandle_spec (sys.paper.ApplyFills c).1 c (stepQuote sys c)
        (sys.paper.ApplyFills c).2
    rw [hfpd]
    obtain ⟨hv, _, _, _, _, _, _⟩ :=
      process_quote_spec sys.strategy c ((sys.paper.ApplyFills c).1.inventory) hok
    simp [stepQuote, hv]

theorem runSys_nil (sys : Sys) : runSys sys [] = sys := rfl

theorem runSys_cons (sys : Sys) (c : Candle) (cs : List Candle) :
    runSys sys (c :: cs) = runSys (stepSys sys c) cs := rfl

theorem runSys_append (sys : Sys) (cs : List Candle) (c : Candle) :
    runSys sys (cs ++ [c]) = stepSys (runSys sys cs) c := by
  simp [runSys, List.foldl_append]

/-- A small strategy configuration used for concrete evaluations: one-candle
warm-up (`MeSpan = 1`, `EmaSpan = 1`), zero base spread and skews, lot 1,
unbounded inventory. -/
def paramsA : Params :=
  { MeSpan := 1, EmaSpan := 1, BaseSpread := 0, InventoryLimit := 0,
    LotSize := 1, InventorySkewK := 0, TrendSkewK := 0, TrendBias := 0 }

theorem mem_fillsOf (c : Candle) (l : List Order) (t : Trade)
    (ht : t ∈ fillsOf c l) : ∃ o ∈ l, fillCond c o = true ∧ t = tradeOf c o := by
  simp only [fillsOf, List.mem_filterMap] at ht
  obtain ⟨o, hol, hsome⟩ := ht
  refine ⟨o, hol, ?_⟩
  by_cases h : fillCond c o = true
  · rw [if_pos h] at hsome
    exact ⟨h, (Option.some_injective _ hsome).symm⟩
  · rw [if_neg h] at hsome
    cases hsome

theorem fillsOf_mem_of_cond (c : Candle) (l : List Order) (o : Order)
    (hol : o ∈ l) (hc : fillCond c o = true) : tradeOf c o ∈ fillsOf c l := by
  simp only [fillsOf, List.mem_filterMap]
  exact ⟨o, hol, by rw [if_pos hc]⟩

/-- A buy order in the installed quote list is its head, and everything after
it is a sell. -/
theorem ordersFromQuote_buy_head (q : Quote) (o : Order)
    (ho : o ∈ ordersFromQuote q) (hs : o.side = Side.buy) :
    ∃ rest, ordersFromQuote q = o :: rest ∧ ∀ o' ∈ rest, o'.side = Side.sell := by
  unfold ordersFromQuote at ho ⊢
  split at ho
  · rename_i hb
    rw [if_pos hb]
    split at ho
    · rename_i ha
      rw [if_pos ha]
      simp only [List.cons_append, List.nil_append, List.mem_cons,
        List.not_mem_nil, or_false] at ho
      rcases ho with ho | ho
      · refine ⟨[Order.mk Side.sell q.askPrice q.askSize q.time],
          by rw [ho]; rfl, ?_⟩
        intro o' ho'
        simp only [List.mem_singleton] at ho'
        rw [ho']
      · rw [ho] at hs
        simp at hs
    · rename_i ha
      rw [if_neg ha]
      simp only [List.append_nil, List.mem_singleton] at ho
      exact ⟨[], by simp [ho], by simp⟩
  · rename_i hb
    rw [if_neg hb]
    split at ho
    · simp only [List.nil_append, List.mem_singleton] at ho
      rw [ho] at hs
      simp at hs
    · simp at ho

/-- C1: the fill evaluation order of the pipeline.  The trades recorded on
candle `N` come only from the orders resting before it, and a buy order
resting after candle `N` produces a (matching) buy fill on candle `N+1`
exactly when `N+1`'s low is `≤` its price. -/
theorem claim_C1 (sys : Sys) (cN cN1 : Candle) (o : Order)
    (ho : o ∈ (stepSys sys cN).paper.pendingOrders) (hside : o.side = Side.buy) :
    (stepSys sys cN).paper.trades = sys.paper.trades ++ (sys.paper.ApplyFills cN).2 ∧
    ((∃ t ∈ ((stepSys sys cN).paper.ApplyFills cN1).2,
        t.side = Side.buy ∧ t.price = o.price ∧ t.size = o.size) ↔
      F.le cN1.low o.price = true) := by
  refine ⟨stepSys_trades sys cN, ?_⟩
  have hpend := stepSys_pending sys cN
  by_cases hok : stepOk sys cN = true
  case neg =>
    rw [hpend] at ho
    simp [hok] at ho
  rw [if_pos hok] at hpend
  rw [hpend] at ho
  obtain ⟨rest, hq, hrest⟩ := ordersFromQuote_buy_head _ o ho hside
  have hfills := (applyFills_spec (stepSys sys cN).paper cN1).1
  rw [hpend, hq] at hfills
  rw [hfills, fillsOf_cons]
  constructor
  · rintro ⟨t, hmem, htside, htp, hts⟩
    rcases List.mem_append.mp hmem with hm | hm
    · by_cases hcond : fillCond cN1 o = true
      · rw [fillCond, hside] at hcond
        exact hcond
      · rw [if_neg hcond] at hm
        cases hm
    · obtain ⟨o', ho', _, hto'⟩ := mem_fillsOf cN1 rest t hm
      rw [hto', tradeOf] at htside
      rw [hrest o' ho'] at htside
      cases htside
  · intro hle
    have hcond : fillCond cN1 o = true := by rw [fillCond, hside]; exact hle
    refine ⟨tradeOf cN1 o, ?_, ?_, rfl, rfl⟩
    · exact List.mem_append.mpr (Or.inl (by rw [if_pos hcond]; simp [tradeOf]))
    · rw [tradeOf, hside]

/-- Witness for C1 at a concrete two-candle warm-up run: a buy at price 1
rests after candle 2 and candle 3 (low 1) fills it. -/
theorem claim_C1_witness :
    (stepSys (runSys (initSys paramsA) [mkCandle 1 2 1 1 1]) (mkCandle 2 2 1 1 1)).paper.trades =
      (runSys (initSys paramsA) [mkCandle 1 2 1 1 1]).paper.trades ++
        ((runSys (initSys paramsA) [mkCandle 1 2 1 1 1]).paper.ApplyFills (mkCandle 2 2 1 1 1)).2 ∧
    ((∃ t ∈ ((stepSys (runSys (initSys paramsA) [mkCandle 1 2 1 1 1])
          (mkCandle 2 2 1 1 1)).paper.ApplyFills (mkCandle 3 2 1 1 1)).2,
        t.side = Side.buy ∧ t.price = (F.val 1 : F) ∧ t.size = (1 : ℤ)) ↔
      F.le (mkCandle 3 2 1 1 1).low (F.val 1) = true) :=
  claim_C1 (runSys (initSys paramsA) [mkCandle 1 2 1 1 1]) (mkCandle 2 2 1 1 1)
    (mkCandle 3 2 1 1 1)
    { side := Side.buy, price := F.val 1, size := 1, placedAt := 2 }
    (by with_unfolding_all decide) rfl

/-- C4: if the strategy returned `ok=false` for a cycle, the engine holds
zero resting orders once the cycle has been processed (any orders that were
resting were cleared by `ApplyFills`, and none are installed because
`FinalizeCandle` is skipped). -/
theorem claim_C4 (sys : Sys) (c : Candle) (h : stepOk sys c = false) :
    (stepSys sys c).paper.pendingOrders = [] := by
  rw [stepSys_paper_notok sys c h]
  exact (applyFills_spec sys.paper c).2.1

/-- Witness for C4: the first (warm-up) candle of a fresh run is withheld
and leaves no resting orders. -/
theorem claim_C4_witness :
    stepOk (initSys paramsA) (mkCandle 1 2 1 1 1) = false ∧
    (stepSys (initSys paramsA) (mkCandle 1 2 1 1 1)).paper.pendingOrders = [] :=
  ⟨by decide, claim_C4 (initSys paramsA) (mkCandle 1 2 1 1 1) (by decide)⟩

/-- C7 (amended): one result row is appended per cycle in which the strategy
returned `ok=true`; cycles with `ok=false` are skipped by the loop and
append none. -/
theorem claim_C7 (sys : Sys) (cs : List Candle) :
    (runSys sys cs).paper.results.length =
      sys.paper.results.length + okCount sys cs := by
  induction cs generalizing sys with
  | nil => simp [runSys_nil, okCount]
  | cons c cs ih =>
    rw [runSys_cons, ih (stepSys sys c), stepSys_results_len]
    simp only [okCount]
    cases stepOk sys c
    · simp
    · simp
      omega

/-- Counterexample to C7 as stated: a fresh one-candle run processes one
candle (a warm-up cycle, `ok=false`) and appends zero result rows, not one. -/
theorem claim_C7_counterexample :
    (runSys (initSys paramsA) [mkCandle 1 2 1 1 1]).paper.results.length ≠
      [mkCandle 1 2 1 1 1].length := by decide

/-- C10: with a resting buy at `b` and a resting sell at `a` of equal size
and a candle crossing both, both fill on that candle: inventory is
unchanged, cash grows by exactly `(a-b)·size`, and both trades are appended
to the log in order, buy first. -/
theorem claim_C10 (pe : PaperEngine) (c : Candle) (b a q : ℚ) (sz tb ts : ℤ)
    (hpend : pe.pendingOrders =
      [{ side := Side.buy, price := F.val b, size := sz, placedAt := tb },
       { side := Side.sell, price := F.val a, size := sz, placedAt := ts }])
    (hcash : pe.cash = F.val q)
    (hbuy : F.le c.low (F.val b) = true)
    (hsell : F.ge c.high (F.val a) = true) :
    (pe.ApplyFills c).1.inventory = pe.inventory ∧
    (pe.ApplyFills c).1.cash = F.val (q + (a - b) * sz) ∧
    (pe.ApplyFills c).2 =
      [{ side := Side.buy, time := c.time, price := F.val b, size := sz },
       { side := Side.sell, time := c.time, price := F.val a, size := sz }] ∧
    (pe.ApplyFills c).1.trades = pe.trades ++
      [{ side := Side.buy, time := c.time, price := F.val b, size := sz },
       { side := Side.sell, time := c.time, price := F.val a, size := sz }] := by
  unfold PaperEngine.ApplyFills
  rw [hpend]
  simp only [List.foldl_cons, List.foldl_nil, fillOrder, hbuy, hsell, reduceCtorEq,
    if_true, if_false]
  simp [hcash, F.sub, F.add, F.mul, F.ofInt]
  ring

/-- Witness for C10 at a concrete engine state. -/
theorem claim_C10_witness :
    (({ NewPaperEngine with pendingOrders :=
        [{ side := Side.buy, price := F.val 1, size := 1, placedAt := 5 },
         { side := Side.sell, price := F.val 2, size := 1, placedAt := 5 }] } :
      PaperEngine).ApplyFills (mkCandle 9 2 1 1 1)).1.inventory =
      ({ NewPaperEngine with pendingOrders :=
        [{ side := Side.buy, price := F.val 1, size := 1, placedAt := 5 },
         { side := Side.sell, price := F.val 2, size := 1, placedAt := 5 }] } :
      PaperEngine).inventory ∧
    (({ NewPaperEngine with pendingOrders :=
        [{ side := Side.buy, price := F.val 1, size := 1, placedAt := 5 },
         { side := Side.sell, price := F.val 2, size := 1, placedAt := 5 }] } :
      PaperEngine).ApplyFills (mkCandle 9 2 1 1 1)).1.cash = F.val (0 + (2 - 1) * 1) ∧
    (({ NewPaperEngine with pendingOrders :=
        [{ side := Side.buy, price := F.val 1, size := 1, placedAt := 5 },
         { side := Side.sell, price := F.val 2, size := 1, placedAt := 5 }] } :
      PaperEngine).ApplyFills (mkCandle 9 2 1 1 1)).2 =
      [{ side := Side.buy, time := 9, price := F.val 1, size := 1 },
       { side := Side.sell, time := 9, price := F.val 2, size := 1 }] ∧
    (({ NewPaperEngine with pendingOrders :=
        [{ side := Side.buy, price := F.val 1, size := 1, placedAt := 5 },
         { side := Side.sell, price := F.val 2, size := 1, placedAt := 5 }] } :
      PaperEngine).ApplyFills (mkCandle 9 2 1 1 1)).1.trades =
      ({ NewPaperEngine with pendingOrders :=
        [{ side := Side.buy, price := F.val 1, size := 1, placedAt := 5 },
         { side := Side.sell, price := F.val 2, size := 1, placedAt := 5 }] } :
      PaperEngine).trades ++
      [{ side := Side.buy, time := 9, price := F.val 1, size := 1 },
       { side := Side.sell, time := 9, price := F.val 2, size := 1 }] :=
  claim_C10 _ (mkCandle 9 2 1 1 1) 1 2 0 1 5 5 rfl rfl (by decide) (by decide)

/-- The normalized slope that lines 728–747 of `part_000` compute during a
ready call of `EmaIndicator.Process indi c` — the value the spec says is
exposed as `SlopeNorm`.  It reproduces the call's EMA/window/mean/stdDev
computation and feeds it to `emaNormSlopeLocal`; the Go function computes
exactly this and then discards it. -/
def emaSlopeOfCall (indi : EmaIndicator) (c : Candle) : F :=
  let ema := F.add (F.mul c.close indi.alpha) (F.mul indi.ema indi.decay)
  let st := { indi with
    ema := ema, window := indi.window ++ [ema],
    sum := F.add indi.sum ema,
    sumSquares := F.add indi.sumSquares (F.mul ema ema) }
  if (st.window.length : ℤ) < indi.span then F.nan
  else
    let st :=
      if (st.window.length : ℤ) > indi.span then
        let removed := st.window.headD (F.val 0)
        { st with
          window := st.window.tail, sum := F.sub st.sum removed,
          sumSquares := F.sub st.sumSquares (F.mul removed removed) }
      else st
    let n := F.val (st.window.length : ℚ)
    let mean := F.div st.sum n
    let variance := F.sub (F.div st.sumSquares n) (F.mul mean mean)
    let variance := if F.lt variance (F.val 0) then F.val 0 else variance
    let stdDev := F.sqrt variance
    emaNormSlopeLocal st.hasLastMid st.lastMid mean stdDev

/-- `EmaIndicator.Process` never writes the `SlopeNorm` field. -/
theorem emaProcess_slopeNorm (indi : EmaIndicator) (c : Candle) :
    ((indi.Process c).1).SlopeNorm = indi.SlopeNorm := by
  simp only [EmaIndicator.Process]
  split
  · rfl
  · split <;> rfl

/-- C5 (code bug): with span 1 and closes `[1, 2]`, the second call is
ready, the normalized slope the spec describes evaluates to `1`
(slope `= 2 - 1 = 1`, `stdDev = 0`, fallback denominator `|previousMean| = 1`,
clamped), but the exposed `SlopeNorm` is still `0`: the Go code computes the
value into a local and never assigns the field. -/
theorem claim_C5 :
    (((NewEmaIndicator 1).Process (mkCandle 1 1 1 1 1)).1.Process (mkCandle 2 2 2 2 1)).2 = true ∧
    emaSlopeOfCall ((NewEmaIndicator 1).Process (mkCandle 1 1 1 1 1)).1 (mkCandle 2 2 2 2 1) =
      F.val 1 ∧
    (((NewEmaIndicator 1).Process (mkCandle 1 1 1 1 1)).1.Process (mkCandle 2 2 2 2 1)).1.SlopeNorm =
      F.val 0 ∧
    (F.val 1 : F) ≠ F.val 0 := by
  with_unfolding_all decide

theorem slideWindow_fst_length (p : ℤ) (w : List F) (s x : F) :
    ((slideWindow p w s x).1.length : ℤ) =
      if ((w.length : ℤ) + 1 > p) then (w.length : ℤ) else (w.length : ℤ) + 1 := by
  simp only [slideWindow]
  split <;> split
  all_goals simp_all

theorem trimCloses_length (p : ℤ) (hp : 0 < p) (l : List F) :
    ((trimCloses p l).length : ℤ) = Min.min (l.length : ℤ) (p + 1) := by
  simp only [trimCloses]
  split <;> (rename_i h; simp at h ⊢; omega)

/-- Readiness of `MeIndicator.Process` depends only on the period and the
three window lengths of the pre-call state — never on any stored or incoming
value. -/
theorem meProcess_ready_formula (st : MeIndicator) (c : Candle) :
    (st.Process c).2 =
      decide (0 < st.period ∧ st.period ≤ (st.closeHistory.length : ℤ) ∧
        st.period - 1 ≤ (st.trWindow.length : ℤ) ∧
        st.period - 1 ≤ (st.volWindow.length : ℤ)) := by
  simp only [MeIndicator.Process]
  split
  · rename_i hp
    symm
    simp only [decide_eq_false_iff_not]
    intro h
    omega
  · rename_i hp
    have hch := trimCloses_length st.period (by omega) (st.closeHistory ++ [c.close])
    have htr := slideWindow_fst_length st.period st.trWindow st.trSum
      (trueRange st.closeHistory c)
    have hvol := slideWindow_fst_length st.period st.volWindow st.volSum c.volume
    simp only [apply_ite Prod.snd]
    split
    · rename_i h1
      rw [hch] at h1
      simp only [List.length_append, List.length_cons, List.length_nil] at h1
      symm
      simp only [decide_eq_false_iff_not]
      intro hcon
      omega
    · rename_i h1
      rw [hch] at h1
      simp only [List.length_append, List.length_cons, List.length_nil] at h1
      split
      · rename_i h2
        symm
        simp only [decide_eq_false_iff_not]
        intro hcon
        rcases h2 with h2 | h2
        · rw [htr] at h2
          split at h2 <;> omega
        · rw [hvol] at h2
          split at h2 <;> omega
      · rename_i h2
        push_neg at h2
        obtain ⟨h2a, h2b⟩ := h2
        rw [htr] at h2a
        rw [hvol] at h2b
        symm
        simp only [decide_eq_true_eq]
        refine ⟨by omega, by omega, ?_, ?_⟩
        · split at h2a <;> omega
        · split at h2b <;> omega

/-- A candle whose close is NaN (and whose other fields are ordinary
numbers), used to exercise the NaN-propagation behaviour. -/
def candleNaNClose : Candle :=
  { time := 1, open_ := F.val 1, high := F.val 2, low := F.val 1,
    close := F.nan, volume := F.val 1 }

/-- C6 (amended): readiness of the Market-Efficiency indicator is a function
of the period and the window lengths alone — identical-length states report
the same readiness regardless of any NaN (or other) values stored or fed in. -/
theorem claim_C6 (st st' : MeIndicator) (c c' : Candle)
    (hp : st.period = st'.period)
    (h1 : st.closeHistory.length = st'.closeHistory.length)
    (h2 : st.trWindow.length = st'.trWindow.length)
    (h3 : st.volWindow.length = st'.volWindow.length) :
    (st.Process c).2 = (st'.Process c').2 := by
  rw [meProcess_ready_formula, meProcess_ready_formula, hp, h1, h2, h3]

/-- Witness for C6 (amended): after one candle, the state fed a NaN close
and the state fed a finite close report the same readiness on their next
call. -/
theorem claim_C6_witness :
    (((NewMeIndicator 1).Process candleNaNClose).1.Process (mkCandle 2 2 1 2 1)).2 =
      (((NewMeIndicator 1).Process (mkCandle 1 2 1 1 1)).1.Process (mkCandle 2 2 1 1 1)).2 :=
  claim_C6 ((NewMeIndicator 1).Process candleNaNClose).1
    ((NewMeIndicator 1).Process (mkCandle 1 2 1 1 1)).1
    (mkCandle 2 2 1 2 1) (mkCandle 2 2 1 1 1)
    (by with_unfolding_all decide) (by with_unfolding_all decide)
    (by with_unfolding_all decide) (by with_unfolding_all decide)

/-- Counterexample to C6 as stated: with period 1, a NaN close on candle 1
poisons the true-range running sum (`trSum = NaN`), yet the call on candle 2
reports ready `= true` and returns the computed efficiency `1/10` (the NaN
total movement fails the `> 0` test, so raw efficiency silently becomes 0)
instead of propagating not-ready. -/
theorem claim_C6_counterexample :
    ((NewMeIndicator 1).Process candleNaNClose).2 = false ∧
    (((NewMeIndicator 1).Process candleNaNClose).1.Process (mkCandle 2 2 1 2 1)).1.trSum =
      F.nan ∧
    (((NewMeIndicator 1).Process candleNaNClose).1.Process (mkCandle 2 2 1 2 1)).2 = true ∧
    (((NewMeIndicator 1).Process candleNaNClose).1.Process (mkCandle 2 2 1 2 1)).1.Efficiency =
      F.val (1/10) := by
  with_unfolding_all decide

/-- The window-length invariant of the market-efficiency indicator after `k`
calls with period `p ≥ 1`. -/
def MeLen (p : ℤ) (k : ℕ) (st : MeIndicator) : Prop :=
  st.period = p ∧
  (st.closeHistory.length : ℤ) = Min.min (k : ℤ) (p + 1) ∧
  (st.trWindow.length : ℤ) = Min.min (k : ℤ) p ∧
  (st.volWindow.length : ℤ) = Min.min (k : ℤ) p

theorem meLen_init (p : ℤ) (hp : 0 < p) : MeLen p 0 (NewMeIndicator p) := by
  refine ⟨rfl, ?_, ?_, ?_⟩ <;> simp [NewMeIndicator] <;> omega

/-- The state update of a `MeIndicator.Process` call with positive period,
expressed through the helpers. -/
theorem meProcess_fst (st : MeIndicator) (c : Candle) (hp : 0 < st.period) :
    (st.Process c).1.period = st.period ∧
    (st.Process c).1.closeHistory = trimCloses st.period (st.closeHistory ++ [c.close]) ∧
    (st.Process c).1.trWindow =
      (slideWindow st.period st.trWindow st.trSum (trueRange st.closeHistory c)).1 ∧
    (st.Process c).1.trSum =
      (slideWindow st.period st.trWindow st.trSum (trueRange st.closeHistory c)).2 ∧
    (st.Process c).1.volWindow = (slideWindow st.period st.volWindow st.volSum c.volume).1 ∧
    (st.Process c).1.volSum = (slideWindow st.period st.volWindow st.volSum c.volume).2 := by
  simp only [MeIndicator.Process]
  rw [if_neg (by omega)]
  split
  · simp
  · split <;> simp

theorem meProcess_len (p : ℤ) (k : ℕ) (st : MeIndicator) (c : Candle)
    (hp : 0 < p) (h : MeLen p k st) : MeLen p (k + 1) ((st.Process c).1) := by
  obtain ⟨hper, hch, htr, hvol⟩ := h
  obtain ⟨f1, f2, f3, f4, f5, f6⟩ := meProcess_fst st c (by omega)
  refine ⟨by rw [f1, hper], ?_, ?_, ?_⟩
  · rw [f2, hper, trimCloses_length p hp]
    simp only [List.length_append, List.length_cons, List.length_nil]
    omega
  · rw [f3, hper, slideWindow_fst_length]
    split <;> omega
  · rw [f5, hper, slideWindow_fst_length]
    split <;> omega

theorem meProcess_ready_of_len (p : ℤ) (k : ℕ) (st : MeIndicator) (c : Candle)
    (hp : 0 < p) (h : MeLen p k st) :
    (st.Process c).2 = decide ((p + 1 : ℤ) ≤ (k : ℤ) + 1) := by
  rw [meProcess_ready_formula]
  obtain ⟨hper, hch, htr, hvol⟩ := h
  rw [hper, hch, htr, hvol]
  simp only [decide_eq_decide]
  constructor
  · rintro ⟨_, h2, _, _⟩
    omega
  · intro h1
    exact ⟨hp, by omega, by omega, by omega⟩

theorem meRun_len (p : ℤ) (hp : 0 < p) :
    ∀ (cs : List Candle) (k : ℕ) (st : MeIndicator),
      MeLen p k st → MeLen p (k + cs.length) (meRun st cs) := by
  intro cs
  induction cs with
  | nil => intro k st h; simpa [meRun] using h
  | cons c cs ih =>
    intro k st h
    have h' := meProcess_len p k st c hp h
    have h2 := ih (k + 1) ((st.Process c).1) h'
    simp only [meRun, List.foldl_cons] at h2 ⊢
    simpa [Nat.add_comm, Nat.add_assoc, Nat.add_left_comm] using h2

theorem meProcess_nonpos (st : MeIndicator) (c : Candle) (h : st.period ≤ 0) :
    st.Process c = (st, false) := by
  simp only [MeIndicator.Process]
  rw [if_pos h]

theorem meRun_nonpos (N : ℤ) (hN : N ≤ 0) :
    ∀ cs : List Candle, meRun (NewMeIndicator N) cs = NewMeIndicator N := by
  intro cs
  induction cs with
  | nil => rfl
  | cons c cs ih =>
    simp only [meRun, List.foldl_cons] at ih ⊢
    rw [meProcess_nonpos (NewMeIndicator N) c hN]
    exact ih

/-- C8: with period `N > 0` the market-efficiency indicator reports
`ready=false` on each of the first `N` calls and `ready=true` on every call
from the `(N+1)`-th on, regardless of the candle values; with period `≤ 0`
it never reports ready. -/
theorem claim_C8 :
    (∀ (N : ℤ) (cs : List Candle) (c : Candle), 0 < N →
      ((meRun (NewMeIndicator N) cs).Process c).2 =
        decide (N + 1 ≤ (cs.length : ℤ) + 1)) ∧
    (∀ (N : ℤ) (cs : List Candle) (c : Candle), N ≤ 0 →
      ((meRun (NewMeIndicator N) cs).Process c).2 = false) := by
  constructor
  · intro N cs c hN
    have hlen := meRun_len N hN cs 0 (NewMeIndicator N) (meLen_init N hN)
    simp only [Nat.zero_add] at hlen
    exact meProcess_ready_of_len N cs.length _ c hN hlen
  · intro N cs c hN
    rw [meRun_nonpos N hN cs, meProcess_nonpos (NewMeIndicator N) c hN]

/-- Witness for C8: with period 1, the first call is not ready, the second
is; with period 0 the first call is not ready. -/
theorem claim_C8_witness :
    (((meRun (NewMeIndicator 1) []).Process (mkCandle 1 2 1 1 1)).2 =
      decide ((1 : ℤ) + 1 ≤ ((([] : List Candle).length : ℤ) + 1))) ∧
    (((meRun (NewMeIndicator 1) [mkCandle 1 2 1 1 1]).Process (mkCandle 2 2 1 1 1)).2 =
      decide ((1 : ℤ) + 1 ≤ ((([mkCandle 1 2 1 1 1] : List Candle).length : ℤ) + 1))) ∧
    ((meRun (NewMeIndicator 0) []).Process (mkCandle 1 2 1 1 1)).2 = false :=
  ⟨claim_C8.1 1 [] (mkCandle 1 2 1 1 1) (by decide),
   claim_C8.1 1 [mkCandle 1 2 1 1 1] (mkCandle 2 2 1 1 1) (by decide),
   claim_C8.2 0 [] (mkCandle 1 2 1 1 1) (by decide)⟩

theorem absInt_eq_abs (v : ℤ) : absInt v = |v| := by
  unfold absInt
  split
  · rename_i h
    rw [abs_of_neg h]
  · rename_i h
    rw [abs_of_nonneg (by omega)]

/-- The shape of a resting-order list the engine can hold, gated at
inventory `inv`: nothing, one gated order, or a gated buy followed by a
gated sell, all of size `lot`. -/
def PendShape (L lot inv : ℤ) (l : List Order) : Prop :=
  l = [] ∨
  (∃ o, l = [o] ∧ o.size = lot ∧
    (o.side = Side.buy → |inv + lot| ≤ L) ∧ (o.side = Side.sell → |inv - lot| ≤ L)) ∨
  (∃ ob os, l = [ob, os] ∧ ob.side = Side.buy ∧ os.side = Side.sell ∧
    ob.size = lot ∧ os.size = lot ∧ |inv + lot| ≤ L ∧ |inv - lot| ≤ L)

/-- The inventory-gating invariant of the paper engine. -/
def PendOk (L lot : ℤ) (pe : PaperEngine) : Prop :=
  |pe.inventory| ≤ L ∧ PendShape L lot pe.inventory pe.pendingOrders

/-- A single `fillOrder` step either leaves the inventory alone or moves it
by the order's size in the direction of the order's side. -/
theorem fillOrder_inventory (c : Candle) (acc : PaperEngine × List Trade) (o : Order) :
    (fillOrder c acc o).1.inventory = acc.1.inventory ∨
    (o.side = Side.buy ∧ (fillOrder c acc o).1.inventory = acc.1.inventory + o.size) ∨
    (o.side = Side.sell ∧ (fillOrder c acc o).1.inventory = acc.1.inventory - o.size) := by
  rcases o with ⟨side, price, sz, pl⟩
  cases side <;> simp only [fillOrder] <;> split <;> simp

theorem applyFills_fst_inventory (pe : PaperEngine) (c : Candle) :
    (pe.ApplyFills c).1.inventory =
      (pe.pendingOrders.foldl (fillOrder c) (pe, [])).1.inventory := by
  unfold PaperEngine.ApplyFills
  split
  · rename_i h
    rw [h]
    rfl
  · rfl

/-- Applying fills from a gated book keeps the inventory within the limit. -/
theorem applyFills_bound (L lot : ℤ) (pe : PaperEngine) (c : Candle)
    (h : PendOk L lot pe) : |(pe.ApplyFills c).1.inventory| ≤ L := by
  obtain ⟨hinv, hshape⟩ := h
  rw [applyFills_fst_inventory]
  rcases hshape with h0 | ⟨o, hl, hsz, hgb, hgs⟩ |
    ⟨ob, os, hl, hbs, hss, hbsz, hssz, hgb, hgs⟩
  · rw [h0]
    exact hinv
  · rw [hl]
    simp only [List.foldl_cons, List.foldl_nil]
    rcases fillOrder_inventory c (pe, []) o with hi | ⟨hside, hi⟩ | ⟨hside, hi⟩ <;>
      rw [hi]
    · exact hinv
    · have := hgb hside
      rw [hsz]
      simp only [abs_le] at *
      omega
    · have := hgs hside
      rw [hsz]
      simp only [abs_le] at *
      omega
  · rw [hl]
    simp only [List.foldl_cons, List.foldl_nil]
    have h1 := fillOrder_inventory c (pe, []) ob
    have h2 := fillOrder_inventory c (fillOrder c (pe, []) ob) os
    rcases h1 with hi1 | ⟨_, hi1⟩ | ⟨hside1, hi1⟩
    rotate_right
    · rw [hbs] at hside1
      cases hside1
    all_goals (
      rcases h2 with hi2 | ⟨hside2, hi2⟩ | ⟨_, hi2⟩
      rotate_left 1
      · rw [hss] at hside2
        cases hside2
      all_goals (
        rw [hi2, hi1, hbsz, hssz] at *
        simp only [abs_le] at *
        omega))

/-- The orders installed from a quote whose sizes are `lot` and whose active
flags imply the inventory gates satisfy the gated shape. -/
theorem ordersFromQuote_shape (q : Quote) (L lot inv : ℤ)
    (hbsz : q.bidSize = lot) (hasz : q.askSize = lot)
    (hbact : q.bidActive = true → |inv + lot| ≤ L)
    (haact : q.askActive = true → |inv - lot| ≤ L) :
    PendShape L lot inv (ordersFromQuote q) := by
  unfold ordersFromQuote PendShape
  split
  · rename_i hb
    split
    · rename_i ha
      refine Or.inr (Or.inr ⟨_, _, rfl, rfl, rfl, hbsz, hasz, ?_, ?_⟩)
      · exact hbact hb.1
      · exact haact ha.1
    · refine Or.inr (Or.inl ⟨Order.mk Side.buy q.bidPrice q.bidSize q.time,
        by simp, hbsz, ?_, ?_⟩)
      · intro _
        exact hbact hb.1
      · intro hcon
        simp at hcon
  · split
    · rename_i ha
      refine Or.inr (Or.inl ⟨Order.mk Side.sell q.askPrice q.askSize q.time,
        by simp, hasz, ?_, ?_⟩)
      · intro hcon
        simp at hcon
      · intro _
        exact haact ha.1
    · exact Or.inl (by simp)

/-- The per-run invariant for the inventory-limit claim: the strategy's
configuration is fixed and the paper engine's book is gated. -/
def C3Inv (L lot : ℤ) (sys : Sys) : Prop :=
  sys.strategy.InventoryLimit = L ∧ sys.strategy.LotSize = lot ∧
  PendOk L lot sys.paper

theorem stepSys_C3 (L lot : ℤ) (hL : 0 < L) (sys : Sys) (c : Candle)
    (h : C3Inv L lot sys) : C3Inv L lot (stepSys sys c) := by
  obtain ⟨hLim, hLot, hPend⟩ := h
  have hstrat := process_fst sys.strategy c ((sys.paper.ApplyFills c).1.inventory)
  have hbound := applyFills_bound L lot sys.paper c hPend
  refine ⟨?_, ?_, ?_⟩
  · rw [stepSys_strategy, hstrat]
    exact hLim
  · rw [stepSys_strategy, hstrat]
    exact hLot
  · cases hok : stepOk sys c
    · rw [stepSys_paper_notok _ _ hok]
      exact ⟨hbound, Or.inl (applyFills_spec sys.paper c).2.1⟩
    · rw [stepSys_paper_ok _ _ hok]
      obtain ⟨hfi, _, _, hfpd, _, _⟩ :=
        finalizeCandle_spec (sys.paper.ApplyFills c).1 c (stepQuote sys c)
          (sys.paper.ApplyFills c).2
      have hok' : (sys.strategy.Process c ((sys.paper.ApplyFills c).1.inventory)).2.1 = true := hok
      obtain ⟨hv, hbsz, hasz, hba, haa, _, _⟩ :=
        process_quote_spec sys.strategy c ((sys.paper.ApplyFills c).1.inventory) hok'
      constructor
      · rw [hfi]
        exact hbound
      · rw [hfpd, hfi]
        rw [show (stepQuote sys c).valid = true from hv, if_pos rfl]
        apply ordersFromQuote_shape
        · rw [show stepQuote sys c =
            (sys.strategy.Process c ((sys.paper.ApplyFills c).1.inventory)).2.2 from rfl,
            hbsz, hLot]
        · rw [show stepQuote sys c =
            (sys.strategy.Process c ((sys.paper.ApplyFills c).1.inventory)).2.2 from rfl,
            hasz, hLot]
        · intro hact
          rw [show stepQuote sys c =
            (sys.strategy.Process c ((sys.paper.ApplyFills c).1.inventory)).2.2 from rfl,
            hba, hLim, hLot] at hact
          rw [decide_eq_true_eq] at hact
          rcases hact with hact | hact
          · omega
          · rw [absInt_eq_abs] at hact
            exact hact
        · intro hact
          rw [show stepQuote sys c =
            (sys.strategy.Process c ((sys.paper.ApplyFills c).1.inventory)).2.2 from rfl,
            haa, hLim, hLot] at hact
          rw [decide_eq_true_eq] at hact
          rcases hact with hact | hact
          · omega
          · rw [absInt_eq_abs] at hact
            exact hact

theorem runSys_C3 (L lot : ℤ) (hL : 0 < L) :
    ∀ (cs : List Candle) (sys : Sys), C3Inv L lot sys → C3Inv L lot (runSys sys cs) := by
  intro cs
  induction cs with
  | nil => intro sys h; exact h
  | cons c cs ih =>
    intro sys h
    exact ih (stepSys sys c) (stepSys_C3 L lot hL sys c h)

/-- C3: with `inventoryLimit = L > 0`, a ready strategy activates the bid
side exactly when `|inventory + lotSize| ≤ L` and the ask side exactly when
`|inventory − lotSize| ≤ L` (an inactive side's price is NaN); consequently
no run of the pipeline from a fresh start ever brings `|inventory|` above
`L`. -/
theorem claim_C3 :
    (∀ (s : MmStrat) (c : Candle) (inv : ℤ), 0 < s.InventoryLimit →
      (s.Process c inv).2.1 = true →
      ((s.Process c inv).2.2.bidActive = true ↔ |inv + s.LotSize| ≤ s.InventoryLimit) ∧
      ((s.Process c inv).2.2.bidActive = false → (s.Process c inv).2.2.bidPrice = F.nan) ∧
      ((s.Process c inv).2.2.askActive = true ↔ |inv - s.LotSize| ≤ s.InventoryLimit) ∧
      ((s.Process c inv).2.2.askActive = false → (s.Process c inv).2.2.askPrice = F.nan)) ∧
    (∀ (params : Params) (cs : List Candle), 0 < params.InventoryLimit →
      |(runSys (initSys params) cs).paper.inventory| ≤ params.InventoryLimit) := by
  constructor
  · intro s c inv hL hok
    obtain ⟨_, _, _, hba, haa, hbp, hap⟩ := process_quote_spec s c inv hok
    refine ⟨?_, hbp, ?_, hap⟩
    · rw [hba, decide_eq_true_eq, absInt_eq_abs]
      constructor
      · rintro (h | h)
        · omega
        · exact h
      · intro h
        exact Or.inr h
    · rw [haa, decide_eq_true_eq, absInt_eq_abs]
      constructor
      · rintro (h | h)
        · omega
        · exact h
      · intro h
        exact Or.inr h
  · intro params cs hL
    have hinit : C3Inv params.InventoryLimit params.LotSize (initSys params) := by
      refine ⟨rfl, rfl, ?_, Or.inl rfl⟩
      simp [initSys, NewPaperEngine]
      omega
    exact (runSys_C3 params.InventoryLimit params.LotSize hL cs (initSys params) hinit).2.2.1

/-- Like `paramsA` but with a binding inventory limit of one lot. -/
def paramsB : Params :=
  { MeSpan := 1, EmaSpan := 1, BaseSpread := 0, InventoryLimit := 1,
    LotSize := 1, InventorySkewK := 0, TrendSkewK := 0, TrendBias := 0 }

/-- Witness for C3: a warmed-up strategy with limit 1 activates its bid at
flat inventory, and a three-candle run never exceeds the limit. -/
theorem claim_C3_witness :
    ((((runSys (initSys paramsB) [mkCandle 1 2 1 1 1]).strategy.Process
        (mkCandle 2 2 1 1 1) 0).2.2.bidActive = true) ↔
      |(0 : ℤ) + (runSys (initSys paramsB) [mkCandle 1 2 1 1 1]).strategy.LotSize| ≤
        (runSys (initSys paramsB) [mkCandle 1 2 1 1 1]).strategy.InventoryLimit) ∧
    |(runSys (initSys paramsB) [mkCandle 1 2 1 1 1, mkCandle 2 2 1 1 1,
        mkCandle 3 2 1 1 1]).paper.inventory| ≤ paramsB.InventoryLimit :=
  ⟨(claim_C3.1 (runSys (initSys paramsB) [mkCandle 1 2 1 1 1]).strategy
      (mkCandle 2 2 1 1 1) 0 (by with_unfolding_all decide)
      (by with_unfolding_all decide)).1,
   claim_C3.2 paramsB [mkCandle 1 2 1 1 1, mkCandle 2 2 1 1 1, mkCandle 3 2 1 1 1]
     (by decide)⟩

theorem emaProcess_span (st : EmaIndicator) (c : Candle) :
    (st.Process c).1.span = st.span := by
  simp only [EmaIndicator.Process]
  split
  · rfl
  · split <;> rfl

theorem emaProcess_ready (st : EmaIndicator) (c : Candle) :
    (st.Process c).2 = decide (st.span ≤ (st.window.length : ℤ) + 1) := by
  simp only [EmaIndicator.Process]
  simp only [apply_ite Prod.snd]
  split
  · rename_i h
    simp only [List.length_append, List.length_cons, List.length_nil] at h
    symm
    simp only [decide_eq_false_iff_not]
    omega
  · rename_i h
    simp only [List.length_append, List.length_cons, List.length_nil] at h
    symm
    simp only [decide_eq_true_eq]
    omega

theorem emaProcess_window_length (st : EmaIndicator) (c : Candle) :
    ((st.Process c).1.window.length : ℤ) =
      if ((st.window.length : ℤ) + 1 > st.span) then (st.window.length : ℤ)
      else (st.window.length : ℤ) + 1 := by
  simp only [EmaIndicator.Process]
  simp only [apply_ite Prod.fst]
  split
  · rename_i h
    simp only [List.length_append, List.length_cons, List.length_nil] at h ⊢
    split <;> omega
  · rename_i h
    split
    · rename_i h2
      simp only [List.length_tail, List.length_append, List.length_cons,
        List.length_nil] at h h2 ⊢
      split <;> omega
    · rename_i h2
      simp only [List.length_append, List.length_cons, List.length_nil] at h h2 ⊢
      split <;> omega

/-- The invariant of the EMA trend indicator after `k` calls: fixed span,
`SlopeNorm` stuck at its zero value (the code never assigns it), and a
window length determined by the call count. -/
def EmaGood (sp : ℤ) (k : ℕ) (st : EmaIndicator) : Prop :=
  st.span = sp ∧ st.SlopeNorm = F.val 0 ∧
  (st.window.length : ℤ) = Min.min (k : ℤ) (Max.max sp 0)

theorem emaGood_init (sp : ℤ) : EmaGood sp 0 (NewEmaIndicator sp) := by
  refine ⟨rfl, rfl, ?_⟩
  simp [NewEmaIndicator]

theorem emaProcess_good (sp : ℤ) (k : ℕ) (st : EmaIndicator) (c : Candle)
    (h : EmaGood sp k st) :
    EmaGood sp (k + 1) ((st.Process c).1) ∧
    (st.Process c).2 = decide (sp ≤ (k : ℤ) + 1) := by
  obtain ⟨hsp, hsn, hlen⟩ := h
  refine ⟨⟨?_, ?_, ?_⟩, ?_⟩
  · rw [emaProcess_span, hsp]
  · rw [emaProcess_slopeNorm, hsn]
  · rw [emaProcess_window_length, hsp, hlen]
    split <;> omega
  · rw [emaProcess_ready, hsp, hlen]
    simp only [decide_eq_decide]
    omega

theorem candle_fin_elim (c : Candle) (h : c.fin = true) :
    ∃ qo qh ql qc qv : ℚ, c.open_ = F.val qo ∧ c.high = F.val qh ∧
      c.low = F.val ql ∧ c.close = F.val qc ∧ c.volume = F.val qv := by
  rcases c with ⟨t, o, hi, lo, cl, vo⟩
  cases o <;> cases hi <;> cases lo <;> cases cl <;> cases vo <;>
    simp_all [Candle.fin, F.isVal]

theorem headD_map_val (l : List ℚ) :
    (l.map F.val).headD (F.val 0) = F.val (l.headD 0) := by
  cases l <;> simp

theorem getLast?_map_val (l : List ℚ) :
    (l.map F.val).getLast? = l.getLast?.map F.val := by
  rw [List.getLast?_map]

/-- The true range of a finite candle over a finite close history is a
finite value, nonnegative whenever a previous close exists. -/
theorem trueRange_fin (hs : List ℚ) (c : Candle) (hfin : c.fin = true) :
    ∃ trq : ℚ, trueRange (hs.map F.val) c = F.val trq ∧ (hs ≠ [] → 0 ≤ trq) := by
  obtain ⟨qo, qh, ql, qc, qv, _, hh, hl, _, _⟩ := candle_fin_elim c hfin
  unfold trueRange
  rw [getLast?_map_val]
  cases hlast : hs.getLast? with
  | none =>
    refine ⟨qh - ql, ?_, ?_⟩
    · simp [hh, hl, F.sub]
    · intro hne
      exact absurd (List.getLast?_eq_none_iff.mp hlast) hne
  | some q =>
    refine ⟨Max.max (Max.max (qh - ql) |qh - q|) |ql - q|, ?_, ?_⟩
    · simp [hh, hl, F.sub, F.abs, F.max]
    · intro _
      have h1 : (0 : ℚ) ≤ |ql - q| := abs_nonneg _
      have h2 := le_max_right (Max.max (qh - ql) |qh - q|) |ql - q|
      linarith

/-- `slideWindow` on a finite window with a correct running sum yields a
finite window with a correct running sum, described on the rational lists. -/
theorem slideWindow_fin (p : ℤ) (ts : List ℚ) (x : ℚ) :
    (slideWindow p (ts.map F.val) (F.val ts.sum) (F.val x)).1 =
      (if ((ts.length : ℤ) + 1 > p) then (ts ++ [x]).tail else ts ++ [x]).map F.val ∧
    (slideWindow p (ts.map F.val) (F.val ts.sum) (F.val x)).2 =
      F.val ((if ((ts.length : ℤ) + 1 > p) then (ts ++ [x]).tail else ts ++ [x]).sum) := by
  simp only [slideWindow]
  rw [show (ts.map F.val) ++ [F.val x] = (ts ++ [x]).map F.val by simp]
  rw [show F.add (F.val ts.sum) (F.val x) = F.val ((ts ++ [x]).sum) by
    simp [F.add]]
  have hlen : (((ts ++ [x]).map F.val).length : ℤ) = (ts.length : ℤ) + 1 := by simp
  split
  · rename_i h
    rw [hlen] at h
    rw [if_pos h]
    constructor
    · rcases ts with _ | ⟨a, ts0⟩ <;> simp
    · rcases ts with _ | ⟨a, ts0⟩
      · simp only [List.nil_append]
        simp [F.sub]
      · simp only [List.cons_append, List.map_cons, List.tail_cons, List.headD_cons,
          List.sum_cons, F.sub]
        congr 1
        ring
  · rename_i h
    rw [hlen] at h
    rw [if_neg h]
    exact ⟨rfl, rfl⟩

theorem trimCloses_map (p : ℤ) (l : List ℚ) :
    trimCloses p (l.map F.val) =
      (if ((l.length : ℤ) > p + 1) then l.drop (l.length - (p + 1).toNat) else l).map
        F.val := by
  unfold trimCloses
  simp only [List.length_map]
  split
  · simp [List.map_drop]
  · rfl

/-- The efficiency expression of the ready branch of `MeIndicator.Process`
(lines 658–672 of `part_000`), read off the post-call state: every input of
the computation (close history, running sums, period) is stored unchanged in
the state the call returns. -/
def codeEffPost (st : MeIndicator) (c : Candle) : F :=
  let priceChange := F.sub c.close (st.closeHistory.headD (F.val 0))
  let efficiency :=
    if F.gt st.trSum (F.val 0) then F.div (F.abs priceChange) st.trSum else F.val 0
  let volumeSMA := F.div st.volSum (F.ofInt st.period)
  let volumeRatio :=
    if F.gt volumeSMA (F.val 0) then F.div c.volume volumeSMA else F.val 0
  F.minF (F.add (F.mul efficiency (F.val (7/10)))
    (F.mul (F.div (F.minF volumeRatio (F.val 3)) (F.val 3)) (F.val (3/10)))) (F.val 1)

theorem meProcess_efficiency (st : MeIndicator) (c : Candle) (hp : 0 < st.period) :
    ((st.Process c).2 = false → (st.Process c).1.Efficiency = st.Efficiency) ∧
    ((st.Process c).2 = true →
      (st.Process c).1.Efficiency = codeEffPost ((st.Process c).1) c) := by
  simp only [MeIndicator.Process]
  rw [if_neg (by omega)]
  split
  · exact ⟨fun _ => rfl, fun h => by simp at h⟩
  · split
    · exact ⟨fun _ => rfl, fun h => by simp at h⟩
    · refine ⟨fun h => by simp at h, fun _ => ?_⟩
      simp [codeEffPost]

theorem F_div_val (a b : ℚ) (hb : b ≠ 0) :
    F.div (F.val a) (F.val b) = F.val (a / b) := by
  simp [F.div, hb]

theorem F_gt_val (a b : ℚ) : F.gt (F.val a) (F.val b) = decide (b < a) := rfl

/-- `codeEffPost` at a state with finite history and sums is finite. -/
theorem codeEffPost_fin (st : MeIndicator) (c : Candle) (hp : 0 < st.period)
    (hs : List ℚ) (tsum vsum : ℚ)
    (hch : st.closeHistory = hs.map F.val)
    (htrs : st.trSum = F.val tsum)
    (hvols : st.volSum = F.val vsum)
    (hcfin : c.fin = true) :
    ∃ e : ℚ, codeEffPost st c = F.val e := by
  obtain ⟨qo, qh, ql, qc, qv, hco, hchh, hcl, hcc, hcv⟩ := candle_fin_elim c hcfin
  simp only [codeEffPost]
  rw [hch, htrs, hvols, hcc, hcv, headD_map_val]
  have hpq : ((st.period : ℚ)) ≠ 0 := by
    have : (st.period : ℚ) > 0 := by exact_mod_cast hp
    linarith
  by_cases h1 : (0 : ℚ) < tsum
  · rw [F_gt_val]
    rw [decide_eq_true h1]
    rw [show F.sub (F.val qc) (F.val (hs.headD 0)) = F.val (qc - hs.headD 0) from rfl]
    rw [show F.abs (F.val (qc - hs.headD 0)) = F.val |qc - hs.headD 0| from rfl]
    rw [F_div_val _ _ (by linarith)]
    rw [show F.ofInt st.period = F.val ((st.period : ℚ)) by simp [F.ofInt]]
    rw [F_div_val _ _ hpq]
    by_cases h2 : (0 : ℚ) < vsum / (st.period : ℚ)
    · rw [F_gt_val, decide_eq_true h2, F_div_val _ _ (by linarith)]
      exact ⟨_, rfl⟩
    · rw [F_gt_val, decide_eq_false (by simpa using h2)]
      exact ⟨_, rfl⟩
  · rw [F_gt_val, decide_eq_false (by simpa using h1)]
    rw [show F.ofInt st.period = F.val ((st.period : ℚ)) by simp [F.ofInt]]
    rw [F_div_val _ _ hpq]
    by_cases h2 : (0 : ℚ) < vsum / (st.period : ℚ)
    · rw [F_gt_val, decide_eq_true h2, F_div_val _ _ (by linarith)]
      exact ⟨_, rfl⟩
    · rw [F_gt_val, decide_eq_false (by simpa using h2)]
      exact ⟨_, rfl⟩

/-- The finiteness/accounting invariant of the market-efficiency indicator
after `k` calls on finite candles (period `p ≥ 1`): every stored value is a
rational, the running sums equal the exact sums of their windows, and every
true range computed with a previous close in hand — i.e. every window entry
except possibly the very first candle's, which leaves the window before the
indicator is ever ready — is nonnegative. -/
def MeGood (p : ℤ) (k : ℕ) (st : MeIndicator) : Prop :=
  st.period = p ∧
  ∃ hs ts vs : List ℚ, ∃ e : ℚ,
    st.closeHistory = hs.map F.val ∧
    st.trWindow = ts.map F.val ∧
    st.volWindow = vs.map F.val ∧
    st.trSum = F.val ts.sum ∧
    st.volSum = F.val vs.sum ∧
    st.Efficiency = F.val e ∧
    ((p + 1 ≤ (k : ℤ)) → ∀ q ∈ ts, 0 ≤ q) ∧
    (((k : ℤ) ≤ p) → ∀ q ∈ ts.tail, 0 ≤ q)

theorem meGood_init (p : ℤ) : MeGood p 0 (NewMeIndicator p) :=
  ⟨rfl, [], [], [], 0, rfl, rfl, rfl, rfl, rfl, rfl, by simp, by simp⟩

theorem meProcess_good (p : ℤ) (k : ℕ) (st : MeIndicator) (c : Candle)
    (hp : 0 < p) (hcfin : c.fin = true)
    (hlen : MeLen p k st) (hgood : MeGood p k st) :
    MeGood p (k + 1) ((st.Process c).1) := by
  obtain ⟨hper, hs, ts, vs, e, hch, htr, hvol, htrs, hvols, heff, hnn1, hnn2⟩ := hgood
  obtain ⟨_, hchlen, htrlen, hvollen⟩ := hlen
  obtain ⟨f1, f2, f3, f4, f5, f6⟩ := meProcess_fst st c (by omega)
  obtain ⟨qo, qh, ql, qc, qv, hco, hchh, hcl, hcc, hcv⟩ := candle_fin_elim c hcfin
  obtain ⟨trq, htrq, htrqnn⟩ := trueRange_fin hs c hcfin
  rw [hch] at hchlen
  rw [htr] at htrlen
  rw [hvol] at hvollen
  simp only [List.length_map] at htrlen hvollen hchlen
  -- the three updated windows, on the rational side
  set ts' : List ℚ :=
    if ((ts.length : ℤ) + 1 > p) then (ts ++ [trq]).tail else ts ++ [trq] with hts'
  set vs' : List ℚ :=
    if ((vs.length : ℤ) + 1 > p) then (vs ++ [qv]).tail else vs ++ [qv] with hvs'
  set hs' : List ℚ :=
    if (((hs ++ [qc]).length : ℤ) > p + 1) then
      (hs ++ [qc]).drop ((hs ++ [qc]).length - (p + 1).toNat)
    else hs ++ [qc] with hhs'
  have htr' : (st.Process c).1.trWindow = ts'.map F.val := by
    rw [f3, hper, hch, htr, htrs, htrq]
    exact (slideWindow_fin p ts trq).1
  have htrs' : (st.Process c).1.trSum = F.val ts'.sum := by
    rw [f4, hper, hch, htr, htrs, htrq]
    exact (slideWindow_fin p ts trq).2
  have hvol' : (st.Process c).1.volWindow = vs'.map F.val := by
    rw [f5, hper, hvol, hvols, hcv]
    exact (slideWindow_fin p vs qv).1
  have hvols' : (st.Process c).1.volSum = F.val vs'.sum := by
    rw [f6, hper, hvol, hvols, hcv]
    exact (slideWindow_fin p vs qv).2
  have hch' : (st.Process c).1.closeHistory = hs'.map F.val := by
    rw [f2, hper, hch, hcc]
    rw [show (hs.map F.val) ++ [F.val qc] = (hs ++ [qc]).map F.val by simp]
    rw [trimCloses_map]
  -- nonnegativity of the new true-range window
  have hnn1' : (p + 1 ≤ ((k : ℤ) + 1)) → ∀ q ∈ ts', 0 ≤ q := by
    intro hk q hq
    have hkp : (p : ℤ) ≤ k := by omega
    have htsl : (ts.length : ℤ) = p := by omega
    rw [hts'] at hq
    rw [if_pos (by omega)] at hq
    rcases ts with _ | ⟨a, ts0⟩
    · simp at htsl
      omega
    · simp only [List.cons_append, List.tail_cons] at hq
      rcases List.mem_append.mp hq with hq | hq
      · by_cases hkstrict : p + 1 ≤ (k : ℤ)
        · exact hnn1 hkstrict q (List.mem_cons_of_mem a hq)
        · have : (k : ℤ) ≤ p := by omega
          exact hnn2 this q (by simpa using hq)
      · simp only [List.mem_singleton] at hq
        subst hq
        apply htrqnn
        intro hempty
        rw [hempty] at hchlen
        simp at hchlen
        omega
  have hnn2' : (((k : ℤ) + 1) ≤ p) → ∀ q ∈ ts'.tail, 0 ≤ q := by
    intro hk q hq
    have htsl : (ts.length : ℤ) = (k : ℤ) := by omega
    rw [hts'] at hq
    rw [if_neg (by omega)] at hq
    rcases ts with _ | ⟨a, ts0⟩
    · simp at hq
    · simp only [List.cons_append, List.tail_cons] at hq
      rcases List.mem_append.mp hq with hq | hq
      · exact hnn2 (by omega) q (by simpa using hq)
      · simp only [List.mem_singleton] at hq
        subst hq
        apply htrqnn
        intro hempty
        rw [hempty] at hchlen
        simp at hchlen
        simp at htsl
        omega
  refine ⟨by rw [f1, hper], ?_⟩
  cases hready : (st.Process c).2
  · have heq := (meProcess_efficiency st c (by omega)).1 hready
    exact ⟨hs', ts', vs', e, hch', htr', hvol', htrs', hvols', by rw [heq, heff],
      hnn1', hnn2'⟩
  · have heq := (meProcess_efficiency st c (by omega)).2 hready
    obtain ⟨e', he'⟩ := codeEffPost_fin ((st.Process c).1) c (by rw [f1, hper]; omega)
      hs' ts'.sum vs'.sum hch' htrs' hvols' hcfin
    exact ⟨hs', ts', vs', e', hch', htr', hvol', htrs', hvols', by rw [heq, he'],
      hnn1', hnn2'⟩

/-- Both indicators are warm (the strategy emits a quote) from call `j` on:
`j ≥ MeSpan+1` and `j ≥ EmaSpan`, with a positive market-efficiency period. -/
def Warm (params : Params) (j : ℕ) : Prop :=
  0 < params.MeSpan ∧ params.MeSpan + 1 ≤ (j : ℤ) ∧ params.EmaSpan ≤ (j : ℤ)

instance (params : Params) (j : ℕ) : Decidable (Warm params j) := by
  unfold Warm
  infer_instance

theorem warm_mono (params : Params) (j : ℕ) (h : Warm params j) : Warm params (j + 1) := by
  obtain ⟨h1, h2, h3⟩ := h
  exact ⟨h1, by push_cast; omega, by push_cast; omega⟩

/-- The pipeline invariant after `k` finite candles: both indicator states
are characterized, and the paper engine is still untouched while the
strategy has never yet been warm. -/
def SysGood (params : Params) (k : ℕ) (sys : Sys) : Prop :=
  EmaGood params.EmaSpan k sys.strategy.emaIndi ∧
  (0 < params.MeSpan →
    MeLen params.MeSpan k sys.strategy.meIndi ∧
    MeGood params.MeSpan k sys.strategy.meIndi) ∧
  (params.MeSpan ≤ 0 → sys.strategy.meIndi = NewMeIndicator params.MeSpan) ∧
  (¬ Warm params k → sys.paper = NewPaperEngine)

theorem sysGood_init (params : Params) : SysGood params 0 (initSys params) :=
  ⟨emaGood_init _, fun hp => ⟨meLen_init _ hp, meGood_init _⟩, fun _ => rfl, fun _ => rfl⟩

/-- With finite candles, the strategy's `ok` flag on call `k+1` is exactly
the warm-up predicate: the EMA indicator is ready iff `k+1 ≥ EmaSpan`, its
`SlopeNorm` is the never-assigned `0` (never NaN), the ME indicator is ready
iff `k+1 ≥ MeSpan+1`, and its efficiency is then a finite value. -/
theorem stepOk_char (params : Params) (k : ℕ) (sys : Sys) (c : Candle)
    (hg : SysGood params k sys) (hcfin : c.fin = true) :
    stepOk sys c = decide (Warm params (k + 1)) := by
  obtain ⟨hema, hme, hmeneg, hpaper⟩ := hg
  obtain ⟨hema', heready⟩ := emaProcess_good params.EmaSpan k sys.strategy.emaIndi c hema
  by_cases hw : Warm params (k + 1)
  · rw [decide_eq_true hw]
    obtain ⟨hp, hjme, hjema⟩ := hw
    obtain ⟨hlen, hgood⟩ := hme hp
    have hready := meProcess_ready_of_len params.MeSpan k sys.strategy.meIndi c hp hlen
    have hgood' := meProcess_good params.MeSpan k sys.strategy.meIndi c hp hcfin hlen hgood
    obtain ⟨_, hs', ts', vs', e', _, _, _, _, _, heff', _, _⟩ := hgood'
    apply (process_ok_iff _ _ _).mpr
    refine ⟨?_, ?_, ?_, ?_⟩
    · rw [heready]
      exact decide_eq_true (by push_cast at hjema ⊢; omega)
    · rw [hema'.2.1]
      rfl
    · rw [hready]
      exact decide_eq_true (by push_cast at hjme ⊢; omega)
    · rw [heff']
      rfl
  · rw [decide_eq_false hw]
    cases hS : stepOk sys c
    · rfl
    · exfalso
      obtain ⟨hea, _, hmo, _⟩ := (process_ok_iff _ _ _).mp hS
      by_cases hp : 0 < params.MeSpan
      · obtain ⟨hlen, _⟩ := hme hp
        have hready := meProcess_ready_of_len params.MeSpan k sys.strategy.meIndi c hp hlen
        rw [hready, decide_eq_true_eq] at hmo
        rw [heready, decide_eq_true_eq] at hea
        exact hw ⟨hp, by push_cast; omega, by push_cast; omega⟩
      · rw [hmeneg (by omega), meProcess_nonpos _ _ (by simp [NewMeIndicator]; omega)] at hmo
        exact Bool.false_ne_true hmo

theorem applyFills_new (c : Candle) :
    (NewPaperEngine.ApplyFills c).1 = NewPaperEngine := by
  unfold PaperEngine.ApplyFills NewPaperEngine
  simp

theorem stepSys_sysGood (params : Params) (k : ℕ) (sys : Sys) (c : Candle)
    (hg : SysGood params k sys) (hcfin : c.fin = true) :
    SysGood params (k + 1) (stepSys sys c) := by
  obtain ⟨hema, hme, hmeneg, hpaper⟩ := hg
  have hstrat := process_fst sys.strategy c ((sys.paper.ApplyFills c).1.inventory)
  refine ⟨?_, ?_, ?_, ?_⟩
  · rw [stepSys_strategy, hstrat]
    exact (emaProcess_good params.EmaSpan k sys.strategy.emaIndi c hema).1
  · intro hp
    obtain ⟨hlen, hgood⟩ := hme hp
    rw [stepSys_strategy, hstrat]
    exact ⟨meProcess_len params.MeSpan k sys.strategy.meIndi c hp hlen,
      meProcess_good params.MeSpan k sys.strategy.meIndi c hp hcfin hlen hgood⟩
  · intro hneg
    rw [stepSys_strategy, hstrat]
    show (sys.strategy.meIndi.Process c).1 = NewMeIndicator params.MeSpan
    rw [hmeneg hneg, meProcess_nonpos _ _ (by simp [NewMeIndicator]; omega)]
  · intro hnw
    have hnwk : ¬ Warm params k := fun hwk => hnw (warm_mono params k hwk)
    have hok : stepOk sys c = false := by
      rw [stepOk_char params k sys c ⟨hema, hme, hmeneg, hpaper⟩ hcfin]
      exact decide_eq_false hnw
    rw [stepSys_paper_notok _ _ hok, hpaper hnwk, applyFills_new]

theorem runSys_sysGood (params : Params) :
    ∀ (cs : List Candle) (k : ℕ) (sys : Sys), (∀ x ∈ cs, x.fin = true) →
      SysGood params k sys → SysGood params (k + cs.length) (runSys sys cs) := by
  intro cs
  induction cs with
  | nil => intro k sys _ h; exact h
  | cons c cs ih =>
    intro k sys hfin h
    have h1 := stepSys_sysGood params k sys c h (hfin c (by simp))
    have h2 := ih (k + 1) (stepSys sys c) (fun x hx => hfin x (by simp [hx])) h1
    simp only [runSys, List.foldl_cons] at h2 ⊢
    simpa [Nat.add_comm, Nat.add_assoc, Nat.add_left_comm] using h2

/-- C2: per-fill accounting is exact (buys pay `price·size` and add `size`
lots; sells receive `price·size` and remove `size` lots), and after
processing any nonempty sequence of finite candles from a fresh start,
`FinalPnL()` equals `cash + inventory · (last candle's close)` exactly. -/
theorem claim_C2 :
    (∀ (c : Candle) (pe : PaperEngine) (fs : List Trade) (o : Order),
      o.side = Side.buy → F.le c.low o.price = true →
      (fillOrder c (pe, fs) o).1.cash =
        F.sub pe.cash (F.mul o.price (F.ofInt o.size)) ∧
      (fillOrder c (pe, fs) o).1.inventory = pe.inventory + o.size) ∧
    (∀ (c : Candle) (pe : PaperEngine) (fs : List Trade) (o : Order),
      o.side = Side.sell → F.ge c.high o.price = true →
      (fillOrder c (pe, fs) o).1.cash =
        F.add pe.cash (F.mul o.price (F.ofInt o.size)) ∧
      (fillOrder c (pe, fs) o).1.inventory = pe.inventory - o.size) ∧
    (∀ (params : Params) (cs : List Candle) (c : Candle),
      (∀ x ∈ cs ++ [c], x.fin = true) →
      (runSys (initSys params) (cs ++ [c])).paper.FinalPnL =
        F.add (runSys (initSys params) (cs ++ [c])).paper.cash
          (F.mul (F.ofInt (runSys (initSys params) (cs ++ [c])).paper.inventory)
            c.close)) := by
  refine ⟨?_, ?_, ?_⟩
  · intro c pe fs o hside hle
    rcases o with ⟨side, price, sz, pl⟩
    simp only at hside
    subst hside
    simp [fillOrder, hle]
  · intro c pe fs o hside hge
    rcases o with ⟨side, price, sz, pl⟩
    simp only at hside
    subst hside
    simp [fillOrder, hge]
  · intro params cs c hfin
    have hg := runSys_sysGood params cs 0 (initSys params)
      (fun x hx => hfin x (by simp [hx])) (sysGood_init params)
    simp only [Nat.zero_add] at hg
    rw [runSys_append]
    set sysK := runSys (initSys params) cs with hsysK
    cases hok : stepOk sysK c
    · have hg' := stepSys_sysGood params cs.length sysK c hg (hfin c (by simp))
      have hnw : ¬ Warm params (cs.length + 1) := by
        intro hwarm
        rw [stepOk_char params cs.length sysK c hg (hfin c (by simp))] at hok
        rw [decide_eq_true hwarm] at hok
        simp at hok
      have hpe := hg'.2.2.2 hnw
      obtain ⟨qo, qh, ql, qc, qv, _, _, _, hcc, _⟩ :=
        candle_fin_elim c (hfin c (by simp))
      rw [hpe, hcc]
      simp [PaperEngine.FinalPnL, NewPaperEngine, F.add, F.mul, F.ofInt]
    · rw [stepSys_paper_ok _ _ hok]
      obtain ⟨_, _, _, _, _, hlc⟩ :=
        finalizeCandle_spec (sysK.paper.ApplyFills c).1 c (stepQuote sysK c)
          (sysK.paper.ApplyFills c).2
      unfold PaperEngine.FinalPnL
      rw [hlc]

/-- Witness for C2 at concrete inputs: a buy fill, a sell fill, and the
final-P&L identity on a two-candle run. -/
theorem claim_C2_witness :
    ((fillOrder (mkCandle 9 2 1 1 1) (NewPaperEngine, [])
        (Order.mk Side.buy (F.val 1) 1 5)).1.cash =
      F.sub NewPaperEngine.cash (F.mul (F.val 1) (F.ofInt 1)) ∧
     (fillOrder (mkCandle 9 2 1 1 1) (NewPaperEngine, [])
        (Order.mk Side.buy (F.val 1) 1 5)).1.inventory =
      NewPaperEngine.inventory + 1) ∧
    ((fillOrder (mkCandle 9 2 1 1 1) (NewPaperEngine, [])
        (Order.mk Side.sell (F.val 2) 1 5)).1.cash =
      F.add NewPaperEngine.cash (F.mul (F.val 2) (F.ofInt 1)) ∧
     (fillOrder (mkCandle 9 2 1 1 1) (NewPaperEngine, [])
        (Order.mk Side.sell (F.val 2) 1 5)).1.inventory =
      NewPaperEngine.inventory - 1) ∧
    (runSys (initSys paramsA)
        ([mkCandle 1 2 1 1 1] ++ [mkCandle 2 2 1 1 1])).paper.FinalPnL =
      F.add (runSys (initSys paramsA)
          ([mkCandle 1 2 1 1 1] ++ [mkCandle 2 2 1 1 1])).paper.cash
        (F.mul (F.ofInt (runSys (initSys paramsA)
            ([mkCandle 1 2 1 1 1] ++ [mkCandle 2 2 1 1 1])).paper.inventory)
          (mkCandle 2 2 1 1 1).close) :=
  ⟨claim_C2.1 (mkCandle 9 2 1 1 1) NewPaperEngine []
      (Order.mk Side.buy (F.val 1) 1 5) rfl (by decide),
   claim_C2.2.1 (mkCandle 9 2 1 1 1) NewPaperEngine []
      (Order.mk Side.sell (F.val 2) 1 5) rfl (by decide),
   claim_C2.2.2 paramsA [mkCandle 1 2 1 1 1] (mkCandle 2 2 1 1 1) (by decide)⟩

/-- Modelled from the claim's formula, word for word: `efficiency =
min(1, 0.7·rawEfficiency + 0.3·(min(volumeRatio, 3)/3))` with
`rawEfficiency = |close − oldest stored close| / totalMovement` (0 when
`totalMovement` is 0), `totalMovement` the sum of the true-range window,
and `volumeRatio = currentVolume / (volumeSum/period)` (**0 when the
average is 0**). -/
def claimEfficiency (st : MeIndicator) (c : Candle) : F :=
  let oldestClose := st.closeHistory.headD (F.val 0)
  let totalMovement := F.listSum st.trWindow
  let rawEfficiency :=
    if F.beq totalMovement (F.val 0) then F.val 0
    else F.div (F.abs (F.sub c.close oldestClose)) totalMovement
  let volumeAvg := F.div (F.listSum st.volWindow) (F.ofInt st.period)
  let volumeRatio :=
    if F.beq volumeAvg (F.val 0) then F.val 0 else F.div c.volume volumeAvg
  F.minF (F.val 1)
    (F.add (F.mul (F.val (7/10)) rawEfficiency)
      (F.mul (F.val (3/10)) (F.div (F.minF volumeRatio (F.val 3)) (F.val 3))))

/-- The claim's formula amended in one place: the volume-ratio fallback is
`0 when the average is **not positive**` (matching the code's `> 0` guard),
instead of only when it is exactly 0. -/
def amendedEfficiency (st : MeIndicator) (c : Candle) : F :=
  let oldestClose := st.closeHistory.headD (F.val 0)
  let totalMovement := F.listSum st.trWindow
  let rawEfficiency :=
    if F.beq totalMovement (F.val 0) then F.val 0
    else F.div (F.abs (F.sub c.close oldestClose)) totalMovement
  let volumeAvg := F.div (F.listSum st.volWindow) (F.ofInt st.period)
  let volumeRatio :=
    if F.gt volumeAvg (F.val 0) then F.div c.volume volumeAvg else F.val 0
  F.minF (F.val 1)
    (F.add (F.mul (F.val (7/10)) rawEfficiency)
      (F.mul (F.val (3/10)) (F.div (F.minF volumeRatio (F.val 3)) (F.val 3))))

/-- Counterexample to C9 as stated: with period 1 and volume `−1` on both
candles, the ready call computes `Efficiency = 0` (the negative volume
average fails the code's `> 0` guard, so the volume ratio is zeroed), while
the claim's formula — whose fallback fires only when the average is exactly
0 — evaluates to `1/10`. -/
theorem claim_C9_counterexample :
    (((NewMeIndicator 1).Process (mkCandle 1 2 1 1 (-1))).1.Process
        (mkCandle 2 2 1 1 (-1))).2 = true ∧
    (((NewMeIndicator 1).Process (mkCandle 1 2 1 1 (-1))).1.Process
        (mkCandle 2 2 1 1 (-1))).1.Efficiency = F.val 0 ∧
    claimEfficiency
      (((NewMeIndicator 1).Process (mkCandle 1 2 1 1 (-1))).1.Process
        (mkCandle 2 2 1 1 (-1))).1 (mkCandle 2 2 1 1 (-1)) = F.val (1/10) ∧
    (F.val 0 : F) ≠ F.val (1/10) := by
  with_unfolding_all decide

/-- The ready-branch efficiency as an exact rational, mirroring the code. -/
def effQ (p : ℤ) (hs ts vs : List ℚ) (qc qv : ℚ) : ℚ :=
  let priceChange := qc - hs.headD 0
  let efficiency := if 0 < ts.sum then |priceChange| / ts.sum else 0
  let volumeSMA := vs.sum / (p : ℚ)
  let volumeRatio := if 0 < volumeSMA then qv / volumeSMA else 0
  Min.min (efficiency * (7/10) + (Min.min volumeRatio 3 / 3) * (3/10)) 1

theorem codeEffPost_val (st : MeIndicator) (c : Candle) (hp : 0 < st.period)
    (hs ts vs : List ℚ) (qc qv : ℚ)
    (hch : st.closeHistory = hs.map F.val)
    (htrs : st.trSum = F.val ts.sum)
    (hvols : st.volSum = F.val vs.sum)
    (hcc : c.close = F.val qc)
    (hcv : c.volume = F.val qv) :
    codeEffPost st c = F.val (effQ st.period hs ts vs qc qv) := by
  have hpq : ((st.period : ℚ)) ≠ 0 := by
    have : (0 : ℚ) < (st.period : ℚ) := by exact_mod_cast hp
    linarith
  simp only [codeEffPost, effQ]
  rw [hch, htrs, hvols, hcc, hcv, headD_map_val]
  rw [show F.sub (F.val qc) (F.val (hs.headD 0)) = F.val (qc - hs.headD 0) from rfl]
  rw [show F.abs (F.val (qc - hs.headD 0)) = F.val |qc - hs.headD 0| from rfl]
  rw [show F.ofInt st.period = F.val ((st.period : ℚ)) by simp [F.ofInt]]
  rw [F_div_val vs.sum _ hpq]
  by_cases h1 : (0 : ℚ) < ts.sum
  · rw [F_gt_val, decide_eq_true h1, if_pos (rfl : (true : Bool) = true), if_pos h1,
      F_div_val _ _ (by linarith)]
    by_cases h2 : (0 : ℚ) < vs.sum / (st.period : ℚ)
    · rw [F_gt_val, decide_eq_true h2, if_pos (rfl : (true : Bool) = true), if_pos h2,
        F_div_val _ _ (by linarith)]
      rfl
    · rw [F_gt_val, decide_eq_false (by simpa using h2),
        if_neg (by simp : ¬((false : Bool) = true)), if_neg h2]
      rfl
  · rw [F_gt_val, decide_eq_false (by simpa using h1),
      if_neg (by simp : ¬((false : Bool) = true)), if_neg h1]
    by_cases h2 : (0 : ℚ) < vs.sum / (st.period : ℚ)
    · rw [F_gt_val, decide_eq_true h2, if_pos (rfl : (true : Bool) = true), if_pos h2,
        F_div_val _ _ (by linarith)]
      rfl
    · rw [F_gt_val, decide_eq_false (by simpa using h2),
        if_neg (by simp : ¬((false : Bool) = true)), if_neg h2]
      rfl

theorem amendedEfficiency_val (st : MeIndicator) (c : Candle) (hp : 0 < st.period)
    (hs ts vs : List ℚ) (qc qv : ℚ)
    (hch : st.closeHistory = hs.map F.val)
    (htr : st.trWindow = ts.map F.val)
    (hvol : st.volWindow = vs.map F.val)
    (hcc : c.close = F.val qc)
    (hcv : c.volume = F.val qv)
    (htsnn : ∀ q ∈ ts, 0 ≤ q) :
    amendedEfficiency st c = F.val (effQ st.period hs ts vs qc qv) := by
  have hpq : ((st.period : ℚ)) ≠ 0 := by
    have : (0 : ℚ) < (st.period : ℚ) := by exact_mod_cast hp
    linarith
  have hsumnn : (0 : ℚ) ≤ ts.sum := List.sum_nonneg htsnn
  simp only [amendedEfficiency, effQ]
  rw [hch, htr, hvol, hcc, hcv, headD_map_val, F_listSum_map, F_listSum_map]
  rw [show F.sub (F.val qc) (F.val (hs.headD 0)) = F.val (qc - hs.headD 0) from rfl]
  rw [show F.abs (F.val (qc - hs.headD 0)) = F.val |qc - hs.headD 0| from rfl]
  rw [show F.ofInt st.period = F.val ((st.period : ℚ)) by simp [F.ofInt]]
  rw [F_div_val _ _ hpq]
  by_cases h1 : (0 : ℚ) < ts.sum
  · rw [show F.beq (F.val ts.sum) (F.val 0) = false by
      simp [F.beq]; linarith]
    rw [if_neg (by simp : ¬((false : Bool) = true)), if_pos h1,
      F_div_val _ _ (by linarith)]
    by_cases h2 : (0 : ℚ) < vs.sum / (st.period : ℚ)
    · rw [F_gt_val, decide_eq_true h2, if_pos (rfl : (true : Bool) = true), if_pos h2,
        F_div_val _ _ (by linarith)]
      simp only [F.minF]
      rw [F_div_val _ _ (by norm_num : (3 : ℚ) ≠ 0)]
      simp only [F.mul, F.add, F.minF]
      congr 1
      rw [min_comm]
      exact congrArg (fun z => Min.min z 1) (by ring)
    · rw [F_gt_val, decide_eq_false (by simpa using h2),
        if_neg (by simp : ¬((false : Bool) = true)), if_neg h2]
      simp only [F.minF]
      rw [F_div_val _ _ (by norm_num : (3 : ℚ) ≠ 0)]
      simp only [F.mul, F.add, F.minF]
      congr 1
      rw [min_comm]
      exact congrArg (fun z => Min.min z 1) (by ring)
  · have h0 : ts.sum = 0 := by linarith
    rw [show F.beq (F.val ts.sum) (F.val 0) = true by simp [F.beq, h0]]
    rw [if_pos (rfl : (true : Bool) = true), if_neg h1]
    by_cases h2 : (0 : ℚ) < vs.sum / (st.period : ℚ)
    · rw [F_gt_val, decide_eq_true h2, if_pos (rfl : (true : Bool) = true), if_pos h2,
        F_div_val _ _ (by linarith)]
      simp only [F.minF]
      rw [F_div_val _ _ (by norm_num : (3 : ℚ) ≠ 0)]
      simp only [F.mul, F.add, F.minF]
      congr 1
      rw [min_comm]
      exact congrArg (fun z => Min.min z 1) (by ring)
    · rw [F_gt_val, decide_eq_false (by simpa using h2),
        if_neg (by simp : ¬((false : Bool) = true)), if_neg h2]
      simp only [F.minF]
      rw [F_div_val _ _ (by norm_num : (3 : ℚ) ≠ 0)]
      simp only [F.mul, F.add, F.minF]
      congr 1
      rw [min_comm]
      exact congrArg (fun z => Min.min z 1) (by ring)

theorem effQ_bounds (p : ℤ) (hs ts vs : List ℚ) (qc qv : ℚ) (hqv : 0 ≤ qv) :
    0 ≤ effQ p hs ts vs qc qv ∧ effQ p hs ts vs qc qv ≤ 1 := by
  simp only [effQ]
  have hraw : (0 : ℚ) ≤ (if 0 < ts.sum then |qc - hs.headD 0| / ts.sum else 0) := by
    split
    · positivity
    · exact le_refl 0
  have hvr : (0 : ℚ) ≤
      (if 0 < vs.sum / (p : ℚ) then qv / (vs.sum / (p : ℚ)) else 0) := by
    split
    · next h => exact div_nonneg hqv (le_of_lt h)
    · exact le_refl 0
  have hminvr : (0 : ℚ) ≤
      Min.min (if 0 < vs.sum / (p : ℚ) then qv / (vs.sum / (p : ℚ)) else 0) 3 :=
    le_min hvr (by norm_num)
  constructor
  · apply le_min _ (by norm_num)
    have h1 : (0 : ℚ) ≤
        (if 0 < ts.sum then |qc - hs.headD 0| / ts.sum else 0) * (7/10) := by
      positivity
    have h2 : (0 : ℚ) ≤
        (Min.min (if 0 < vs.sum / (p : ℚ) then qv / (vs.sum / (p : ℚ)) else 0) 3 / 3)
          * (3/10) := by positivity
    linarith
  · exact min_le_right _ _

theorem meRun_good (p : ℤ) (hp : 0 < p) :
    ∀ (cs : List Candle) (k : ℕ) (st : MeIndicator),
      (∀ x ∈ cs, x.fin = true) →
      MeLen p k st → MeGood p k st →
      MeGood p (k + cs.length) (meRun st cs) := by
  intro cs
  induction cs with
  | nil => intro k st _ _ hg; simpa [meRun] using hg
  | cons c cs ih =>
    intro k st hfin hl hg
    have hl' := meProcess_len p k st c hp hl
    have hg' := meProcess_good p k st c hp (hfin c (by simp)) hl hg
    have h2 := ih (k + 1) ((st.Process c).1) (fun x hx => hfin x (by simp [hx])) hl' hg'
    simp only [meRun, List.foldl_cons] at h2 ⊢
    simpa [Nat.add_comm, Nat.add_assoc, Nat.add_left_comm] using h2

/-- C9: On every fresh run over finite candles, whenever the
Market-Efficiency indicator reports ready, the Efficiency it computes equals
the claim's formula with the volume-ratio fallback amended from "0 when the
average volume is 0" to "0 when the average volume is not positive" (the
code's guard is `volumeSMA > 0`); and under the claim's own hypothesis that
all volumes are nonnegative, the computed Efficiency lies in [0, 1]. -/
theorem claim_C9 (p : ℤ) (cs : List Candle) (c : Candle) (hp : 0 < p)
    (hfin : ∀ x ∈ cs ++ [c], x.fin = true)
    (hready : ((meRun (NewMeIndicator p) cs).Process c).2 = true) :
    ((meRun (NewMeIndicator p) cs).Process c).1.Efficiency =
      amendedEfficiency ((meRun (NewMeIndicator p) cs).Process c).1 c ∧
    ((∀ x ∈ cs ++ [c], F.le (F.val 0) x.volume = true) →
      F.le (F.val 0) ((meRun (NewMeIndicator p) cs).Process c).1.Efficiency = true ∧
      F.le ((meRun (NewMeIndicator p) cs).Process c).1.Efficiency (F.val 1) = true) := by
  have hcsfin : ∀ x ∈ cs, x.fin = true := fun x hx => hfin x (by simp [hx])
  have hcfin : c.fin = true := hfin c (by simp)
  have hlen0 := meLen_init p hp
  have hlen := meRun_len p hp cs 0 _ hlen0
  have hgood := meRun_good p hp cs 0 _ hcsfin hlen0 (meGood_init p)
  simp only [Nat.zero_add] at hlen hgood
  set st := meRun (NewMeIndicator p) cs with hst
  have hper : st.period = p := hlen.1
  have hpgood : MeGood p (cs.length + 1) (st.Process c).1 :=
    meProcess_good p _ st c hp hcfin hlen hgood
  have hrk : (p + 1 : ℤ) ≤ (cs.length : ℤ) + 1 := by
    have hf := meProcess_ready_of_len p cs.length st c hp hlen
    rw [hf] at hready
    exact of_decide_eq_true hready
  obtain ⟨hper', hs', ts', vs', e', hch', htr', hvol', htrs', hvols', heff', hnn1', hnn2'⟩ :=
    hpgood
  have htsnn : ∀ q ∈ ts', 0 ≤ q := hnn1' (by push_cast; omega)
  obtain ⟨qo, qh, ql, qc, qv, _, _, _, hcc, hcv⟩ := candle_fin_elim c hcfin
  have hpp : 0 < (st.Process c).1.period := by rw [hper']; exact hp
  have heq1 : (st.Process c).1.Efficiency = codeEffPost (st.Process c).1 c :=
    (meProcess_efficiency st c (by rw [hper]; exact hp)).2 hready
  have heq2 : codeEffPost (st.Process c).1 c =
      F.val (effQ ((st.Process c).1.period) hs' ts' vs' qc qv) :=
    codeEffPost_val _ c hpp hs' ts' vs' qc qv hch' htrs' hvols' hcc hcv
  have heq3 : amendedEfficiency (st.Process c).1 c =
      F.val (effQ ((st.Process c).1.period) hs' ts' vs' qc qv) :=
    amendedEfficiency_val _ c hpp hs' ts' vs' qc qv hch' htr' hvol' hcc hcv htsnn
  refine ⟨by rw [heq1, heq2, heq3], ?_⟩
  intro hvolnn
  have hqv : (0 : ℚ) ≤ qv := by
    have hv := hvolnn c (by simp)
    rw [hcv] at hv
    simpa [F.le] using hv
  obtain ⟨hb1, hb2⟩ := effQ_bounds ((st.Process c).1.period) hs' ts' vs' qc qv hqv
  rw [heq1, heq2]
  exact ⟨by simpa [F.le] using hb1, by simpa [F.le] using hb2⟩

theorem claim_C9_witness :
    ((meRun (NewMeIndicator 1) [mkCandle 1 2 1 1 1]).Process
        (mkCandle 2 2 1 1 1)).1.Efficiency =
      amendedEfficiency ((meRun (NewMeIndicator 1) [mkCandle 1 2 1 1 1]).Process
        (mkCandle 2 2 1 1 1)).1 (mkCandle 2 2 1 1 1) ∧
    F.le (F.val 0) ((meRun (NewMeIndicator 1) [mkCandle 1 2 1 1 1]).Process
        (mkCandle 2 2 1 1 1)).1.Efficiency = true ∧
    F.le ((meRun (NewMeIndicator 1) [mkCandle 1 2 1 1 1]).Process
        (mkCandle 2 2 1 1 1)).1.Efficiency (F.val 1) = true := by
  obtain ⟨h1, h2⟩ := claim_C9 1 [mkCandle 1 2 1 1 1] (mkCandle 2 2 1 1 1)
    (by decide)
    (by intro x hx; simp only [List.mem_append, List.mem_singleton,
          List.mem_cons, List.not_mem_nil, or_false] at hx
        rcases hx with h | h <;> rw [h] <;> with_unfolding_all decide)
    (by with_unfolding_all decide)
  refine ⟨h1, h2 ?_⟩
  intro x hx
  simp only [List.mem_append, List.mem_singleton, List.mem_cons,
    List.not_mem_nil, or_false] at hx
  rcases hx with h | h <;> rw [h] <;> with_unfolding_all decide
